import Mathlib

/-!
# drm-vblank-sync-demo: a shallow embedding

The definitions below follow `src/drm-vblank-sync-demo.c`.

Conventions of the embedding:

* C `int` values (`bar_x`, `direction`, `cur`, return codes) are `Int`.  Signed overflow is
  undefined in C.  `update_animation` is modelled without wrap-around:
  `update_animation_no_overflow` shows that on every reachable animation state its
  intermediate values fit in 32 bits.  `draw_moving_bar` is stated for arbitrary animation
  states, so its `int` sum `bar_x + bar_width` is reduced to 32 bits (`int32`), which is
  what the compiled code computes.
* C `uint32_t` values (`width`, `height`, `pitch`, pixel offsets) are `Nat`, with an
  explicit reduction modulo `2 ^ 32` wherever the C code computes with them.
* A pointer `&bufs[i]` is the index `i`.
* Calls into libdrm / libc are answered by an oracle (the list of their results, in call
  order); every call made is recorded, in program order, in a list of `Event`s.
-/

namespace DrmDemo

/-! ## Data model -/

/-- The C `struct animation_state`. -/
structure animation_state where
  bar_x : Int
  bar_width : Int
  direction : Int
  frame_count : Int
  deriving DecidableEq, Repr

/-- The C `struct buffer_object`; the mapping `vaddr` is modelled separately as a memory of
32-bit words. -/
structure buffer_object where
  width : Nat
  height : Nat
  pitch : Nat
  handle : Nat
  size : Nat
  fb_id : Nat
  deriving DecidableEq, Repr

/-- The C `struct flip_pending`. -/
structure flip_pending where
  waiting : Bool
  deriving DecidableEq, Repr

/-- Reduction of a natural number to `uint32_t`. -/
def u32 (n : Nat) : Nat := n % 2 ^ 32

/-- The cast `(int)x` of a `uint32_t` value (two's complement). -/
def int_of_u32 (x : Nat) : Int :=
  if x % 2 ^ 32 < 2 ^ 31 then ((x % 2 ^ 32 : Nat) : Int) else ((x % 2 ^ 32 : Nat) : Int) - 2 ^ 32

/-- Reduction of an integer to a 32-bit `int` (two's complement). -/
def int32 (z : Int) : Int := (z + 2 ^ 31) % 2 ^ 32 - 2 ^ 31

/-! ## Frame source -/

/-- The function `update_animation` (lines 86-98). -/
def update_animation (anim : animation_state) (screen_width : Int) : animation_state :=
  let bar_x := anim.bar_x + anim.direction * 8
  if bar_x + anim.bar_width ≥ screen_width then
    { anim with
      bar_x := screen_width - anim.bar_width
      direction := -1
      frame_count := anim.frame_count + 1 }
  else if bar_x ≤ 0 then
    { anim with
      bar_x := 0
      direction := 1
      frame_count := anim.frame_count + 1 }
  else
    { anim with
      bar_x := bar_x
      frame_count := anim.frame_count + 1 }

/-- The initial `anim` of all three strategies (lines 171-176, 263-268, 367-372). -/
def anim_init : animation_state :=
  { bar_x := 0, bar_width := 80, direction := 1, frame_count := 0 }

/-- The animation state after `n` calls of `update_animation (·, W)` from `anim_init`. -/
def animate (W : Int) : Nat → animation_state
  | 0 => anim_init
  | n + 1 => update_animation (animate W n) W

/-- All intermediate values of one `update_animation` call are representable as 32-bit
`int`. -/
def update_fits_int32 (anim : animation_state) (screen_width : Int) : Prop :=
  let lo : Int := -(2 ^ 31)
  let hi : Int := 2 ^ 31
  let bar_x := anim.bar_x + anim.direction * 8
  (lo ≤ anim.direction * 8 ∧ anim.direction * 8 < hi) ∧
  (lo ≤ bar_x ∧ bar_x < hi) ∧
  (lo ≤ bar_x + anim.bar_width ∧ bar_x + anim.bar_width < hi) ∧
  (lo ≤ screen_width - anim.bar_width ∧ screen_width - anim.bar_width < hi)

/-! ## Rendering -/

/-- The constant `bg_color` of `draw_moving_bar` (line 66). -/
def bg_color : Nat := 0x202020

/-- The constant `bar_color` of `draw_moving_bar` (line 67). -/
def bar_color : Nat := 0xffffff

/-- The store `pixel[offset] = v` into a memory of 32-bit words. -/
def write_word (pixel : Nat → Nat) (offset : Nat) (v : Nat) : Nat → Nat :=
  fun i => if i = offset then v else pixel i

/-- The word offset computed on line 71, in `uint32_t` arithmetic. -/
def pixel_offset (bo : buffer_object) (y x : Nat) : Nat :=
  u32 (u32 (y * (bo.pitch / 4)) + x)

/-- The body of the inner loop of `draw_moving_bar` (lines 71-76). -/
def draw_pixel (bo : buffer_object) (anim : animation_state) (y x : Nat)
    (pixel : Nat → Nat) : Nat → Nat :=
  let offset := pixel_offset bo y x
  if int_of_u32 x ≥ anim.bar_x ∧ int_of_u32 x < int32 (anim.bar_x + anim.bar_width) then
    write_word pixel offset bar_color
  else
    write_word pixel offset bg_color

/-- The inner loop of `draw_moving_bar` (line 70) for row `y`. -/
def draw_row (bo : buffer_object) (anim : animation_state) (y : Nat)
    (pixel : Nat → Nat) : Nat → Nat :=
  (List.range bo.width).foldl (fun px x => draw_pixel bo anim y x px) pixel

/-- The function `draw_moving_bar` (lines 62-79), as a transformer of the mapped memory. -/
def draw_moving_bar (bo : buffer_object) (anim : animation_state)
    (pixel : Nat → Nat) : Nat → Nat :=
  (List.range bo.height).foldl (fun px y => draw_row bo anim y px) pixel

/-- The fields of a `buffer_object` are `uint32_t` values. -/
def buffer_object.wf (bo : buffer_object) : Prop :=
  bo.width < 2 ^ 32 ∧ bo.height < 2 ^ 32 ∧ bo.pitch < 2 ^ 32 ∧
  bo.handle < 2 ^ 32 ∧ bo.size < 2 ^ 32 ∧ bo.fb_id < 2 ^ 32

instance (bo : buffer_object) : Decidable bo.wf := by
  unfold buffer_object.wf; infer_instance

/-- The mapping of `size` bytes made on line 140 holds the `height` rows of `pitch` bytes
of the surface. -/
def buffer_object.mapped (bo : buffer_object) : Prop :=
  bo.pitch * bo.height ≤ bo.size

instance (bo : buffer_object) : Decidable bo.mapped := by
  unfold buffer_object.mapped; infer_instance

/-- A small surface with a padded row stride. -/
def small_bo : buffer_object :=
  { width := 3, height := 2, pitch := 16, handle := 1, size := 32, fb_id := 1 }

/-! ## Presentation engine -/

/-- The calls a strategy makes, as recorded in its log.  `fb` is the index of the surface in
`bufs`, `ret` the value the call returned.  `FlipHandler` records one run of
`page_flip_handler` inside `drmHandleEvent`. -/
inductive Event where
  | SetCrtc (fb : Int) (ret : Int)
  | Draw (fb : Int) (anim : animation_state)
  | PageFlip (fb : Int) (ret : Int)
  | Select (ret : Int)
  | HandleEvent
  | FlipHandler
  | Usleep (usec : Nat)
  | CreateFb (i : Int) (ret : Int)
  | Memset (i : Int)
  | DestroyFb (i : Int)
  | FreeConnector
  | FreeResources
  | Close
  deriving DecidableEq, Repr

/-- The loop of `run_tearing_demo` (lines 182-208).  Each element of the list answers one
`drmModeSetCrtc` call; the run stops at the first call left unanswered.  The result is the
log and whether the loop was left (`break`). -/
def tearing_loop (bufs : Int → buffer_object) (anim : animation_state) (cur : Int) :
    List Int → List Event × Bool
  | [] => ([Event.Draw (1 - cur) anim], false)
  | r :: rs =>
    let back := 1 - cur
    let anim1 := update_animation anim (int_of_u32 (bufs back).width)
    if r ≠ 0 then
      ([Event.Draw back anim, Event.SetCrtc back r], true)
    else
      let rest := tearing_loop bufs anim1 back rs
      (Event.Draw back anim :: Event.SetCrtc back r :: Event.Usleep 2000 :: rest.1, rest.2)

/-- The function `run_tearing_demo` (lines 167-209). -/
def run_tearing_demo (bufs : Int → buffer_object) (rets : List Int) : List Event × Bool :=
  tearing_loop bufs anim_init 0 rets

/-- The function `page_flip_handler` (lines 223-239). -/
def page_flip_handler (pending : flip_pending) : flip_pending :=
  { pending with waiting := false }

/-- The call sites of `run_pageflip_demo` at which the function waits for an answer. -/
inductive pf_pc where
  | at_SetCrtc
  | at_PageFlip
  | at_select
  | at_HandleEvent
  | returned
  deriving DecidableEq, Repr

/-- The local variables of `run_pageflip_demo`, the call site reached and the log. -/
structure pf_state where
  pc : pf_pc
  anim : animation_state
  cur : Int
  back : Int
  pending : flip_pending
  log : List Event

/-- The state of `run_pageflip_demo` on entry (lines 263-270); `back` is not yet in scope. -/
def pf_init : pf_state :=
  { pc := pf_pc.at_SetCrtc, anim := anim_init, cur := 0, back := 0,
    pending := { waiting := false }, log := [] }

/-- The head of the outer loop up to the `drmModePageFlip` call (lines 293-298). -/
def pf_loop_head (bufs : Int → buffer_object) (s : pf_state) : pf_state :=
  let back := 1 - s.cur
  { s with
    pc := pf_pc.at_PageFlip
    back := back
    log := s.log ++ [Event.Draw back s.anim]
    anim := update_animation s.anim (int_of_u32 (bufs back).width) }

/-- The test `while (pending.waiting)` (line 322): either the next `select`, or `cur = back`
(line 344) and the next iteration of the outer loop. -/
def pf_wait_head (bufs : Int → buffer_object) (s : pf_state) : pf_state :=
  if s.pending.waiting then { s with pc := pf_pc.at_select }
  else pf_loop_head bufs { s with cur := s.back }

/-- One step of `run_pageflip_demo`: the call the function is waiting at returns `r`, and the
function runs on to its next call.  For `drmHandleEvent`, `r ≠ 0` means that the
flip-complete event was read and `page_flip_handler` was invoked (once). -/
def pf_step (bufs : Int → buffer_object) (s : pf_state) (r : Int) : pf_state :=
  match s.pc with
  | pf_pc.at_SetCrtc =>
    let s1 := { s with log := s.log ++ [Event.SetCrtc s.cur r] }
    if r ≠ 0 then { s1 with pc := pf_pc.returned } else pf_loop_head bufs s1
  | pf_pc.at_PageFlip =>
    let s1 := { s with log := s.log ++ [Event.PageFlip s.back r] }
    if r ≠ 0 then { s1 with pc := pf_pc.returned }
    else pf_wait_head bufs { s1 with pending := { waiting := true } }
  | pf_pc.at_select =>
    let s1 := { s with log := s.log ++ [Event.Select r] }
    if r < 0 then { s1 with pc := pf_pc.returned }
    else if r = 0 then { s1 with pc := pf_pc.returned }
    else { s1 with pc := pf_pc.at_HandleEvent }
  | pf_pc.at_HandleEvent =>
    let s1 := { s with log := s.log ++ [Event.HandleEvent] }
    let s2 :=
      if r ≠ 0 then
        { s1 with pending := page_flip_handler s1.pending, log := s1.log ++ [Event.FlipHandler] }
      else s1
    pf_wait_head bufs s2
  | pf_pc.returned => s

/-- The function `run_pageflip_demo` (lines 259-346) run against the answers `oracle`. -/
def run_pageflip_demo (bufs : Int → buffer_object) (oracle : List Int) : pf_state :=
  oracle.foldl (pf_step bufs) pf_init

/-- The loop of `run_single_buffer_tearing` (lines 383-399), `n` iterations of it. -/
def single_buffer_loop (bufs : Int → buffer_object) (bo : Int) (anim : animation_state) :
    Nat → List Event
  | 0 => []
  | n + 1 =>
    Event.Draw bo anim ::
      single_buffer_loop bufs bo (update_animation anim (int_of_u32 (bufs bo).width)) n

/-- The function `run_single_buffer_tearing` (lines 362-400): `r` answers the initial
`drmModeSetCrtc`; the loop makes no call and is observed for `n` iterations. -/
def run_single_buffer_tearing (bufs : Int → buffer_object) (bo : Int) (r : Int) (n : Nat) :
    List Event × Bool :=
  if r ≠ 0 then ([Event.SetCrtc bo r], true)
  else (Event.SetCrtc bo r :: single_buffer_loop bufs bo anim_init n, false)

/-! ### Observations on logs -/

/-- The event is a `drmModePageFlip` call. -/
def Event.is_flip : Event → Bool
  | Event.PageFlip _ _ => true
  | _ => false

/-- The event is a `drmModePageFlip` call that succeeded. -/
def Event.is_flip_ok : Event → Bool
  | Event.PageFlip _ r => r = 0
  | _ => false

/-- The event is a run of `page_flip_handler`. -/
def Event.is_handler : Event → Bool
  | Event.FlipHandler => true
  | _ => false

/-- The event is a `select` call. -/
def Event.is_select : Event → Bool
  | Event.Select _ => true
  | _ => false

/-- The event is a `drmHandleEvent` call. -/
def Event.is_dispatch : Event → Bool
  | Event.HandleEvent => true
  | _ => false

/-- The event is a `drmModeSetCrtc` call. -/
def Event.is_setcrtc : Event → Bool
  | Event.SetCrtc _ _ => true
  | _ => false

/-- The event is a `draw_moving_bar` call. -/
def Event.is_draw : Event → Bool
  | Event.Draw _ _ => true
  | _ => false

/-- The event belongs to the completion channel (`drmModePageFlip`, `select`,
`drmHandleEvent`, `page_flip_handler`). -/
def Event.is_channel (e : Event) : Bool :=
  e.is_flip || e.is_select || e.is_dispatch || e.is_handler

/-- The `drmModeSetCrtc` calls of a log: surface index and result, in order. -/
def commits : List Event → List (Int × Int)
  | [] => []
  | Event.SetCrtc fb r :: t => (fb, r) :: commits t
  | _ :: t => commits t

/-- The answers that are consumed when each call is made only after the previous one
succeeded: up to and including the first non-zero one. -/
def upto_first_error : List Int → List Int
  | [] => []
  | r :: rs => if r ≠ 0 then [r] else r :: upto_first_error rs

/-- The number of `page_flip_handler` runs since the last `drmModePageFlip` call of a log;
`none` when there has been no such call. -/
def since_flip (log : List Event) : Option Nat :=
  log.foldl (fun st e =>
    match e with
    | Event.PageFlip _ _ => some 0
    | Event.FlipHandler => st.map (· + 1)
    | _ => st) none

/-! ### Invariants of `run_pageflip_demo` -/

/-- Between two consecutive `drmModePageFlip` calls of the log exactly one
`page_flip_handler` ran. -/
def flips_spaced (log : List Event) : Prop :=
  ∀ pre mid post f1 r1 f2 r2,
    log = pre ++ Event.PageFlip f1 r1 :: (mid ++ Event.PageFlip f2 r2 :: post) →
    (∀ e ∈ mid, e.is_flip = false) → mid.countP Event.is_handler = 1

/-- The value `since_flip log` is what it is meant to be. -/
def since_ok (log : List Event) : Prop :=
  match since_flip log with
  | none => ∀ e ∈ log, e.is_flip = false
  | some k => ∀ pre mid f r, log = pre ++ Event.PageFlip f r :: mid →
      (∀ e ∈ mid, e.is_flip = false) → mid.countP Event.is_handler = k

/-- The part of the invariant of `run_pageflip_demo` that concerns the log: `w` is the
value of `pending.waiting`. -/
def log_inv (log : List Event) (w : Bool) : Prop :=
  flips_spaced log ∧ since_ok log ∧
  log.countP Event.is_flip_ok = log.countP Event.is_handler + (if w then 1 else 0)

/-- The invariant of `run_pageflip_demo`. -/
def pf_inv (s : pf_state) : Prop :=
  log_inv s.log s.pending.waiting ∧
  (match s.pc with
   | pf_pc.at_SetCrtc => s.pending.waiting = false ∧ since_flip s.log = none
   | pf_pc.at_PageFlip =>
     s.pending.waiting = false ∧ (since_flip s.log = none ∨ since_flip s.log = some 1)
   | pf_pc.at_select => s.pending.waiting = true ∧ since_flip s.log = some 0
   | pf_pc.at_HandleEvent => s.pending.waiting = true ∧ since_flip s.log = some 0
   | pf_pc.returned => True)

/-- The invariant behind the fatal timeout: a `select` that returned 0 is the last event
of the log, and the function has returned. -/
def timeout_inv (s : pf_state) : Prop :=
  (s.pc ≠ pf_pc.returned → Event.Select 0 ∉ s.log) ∧
  (∀ pre post, s.log = pre ++ Event.Select 0 :: post → post = [] ∧ s.pc = pf_pc.returned)

/-! ## Driver -/

/-- The constant `MAX_BUFFERS` (line 16). -/
def MAX_BUFFERS : Nat := 2

/-- What the kernel answers to the four calls of one `modeset_create_fb`: the results of
`DRM_IOCTL_MODE_CREATE_DUMB` (with the pitch, size and handle it fills in), of
`drmModeAddFB` (with the framebuffer id), of `DRM_IOCTL_MODE_MAP_DUMB`, and whether `mmap`
returned `MAP_FAILED`. -/
structure fb_answers where
  create_dumb : Int
  pitch : Nat
  size : Nat
  handle : Nat
  add_fb : Int
  fb_id : Nat
  map_dumb : Int
  mmap_failed : Bool

/-- A `drmModeConnector`, as far as `main` reads it; `hdisplay` and `vdisplay` are those of
`modes[0]`. -/
structure drm_connector where
  connector_id : Nat
  connected : Bool
  count_modes : Int
  encoder_id : Nat
  encoders : List Nat
  hdisplay : Nat
  vdisplay : Nat

/-- A `drmModeEncoder`, as far as `main` reads it. -/
structure drm_encoder where
  possible_crtcs : Nat

/-- A `drmModeRes`, as far as `main` reads it. -/
structure drm_resources where
  connectors : List Nat
  crtcs : List Nat

/-- The display device as `main` meets it: the result of `open`, of `drmModeGetResources`,
of `drmModeGetConnector` and `drmModeGetEncoder` per id, and the answers to
`modeset_create_fb` per surface index. -/
structure drm_device where
  open_ret : Int
  resources : Option drm_resources
  get_connector : Nat → Option drm_connector
  get_encoder : Nat → Option drm_encoder
  create : Nat → fb_answers

/-- The function `modeset_create_fb` (lines 100-146): the value returned and the surface as
the call leaves it. -/
def modeset_create_fb (a : fb_answers) (bo : buffer_object) : Int × buffer_object :=
  if a.create_dumb < 0 then (-1, bo)
  else
    let bo1 := { bo with pitch := a.pitch, size := a.size, handle := a.handle }
    if a.add_fb ≠ 0 then (-1, bo1)
    else
      let bo2 := { bo1 with fb_id := a.fb_id }
      if a.map_dumb < 0 then (-1, bo2)
      else if a.mmap_failed then (-1, bo2)
      else (0, bo2)

/-- The connector scan of `main` (lines 434-441): the first connector that is connected
and has a mode. -/
def find_connector (dev : drm_device) : List Nat → Option drm_connector
  | [] => none
  | id :: ids =>
    match dev.get_connector id with
    | some conn =>
      if conn.connected ∧ conn.count_modes > 0 then some conn else find_connector dev ids
    | none => find_connector dev ids

/-- The encoder lookup of `main` (lines 452-455). -/
def find_encoder (dev : drm_device) (conn : drm_connector) : Option drm_encoder :=
  let enc := if conn.encoder_id ≠ 0 then dev.get_encoder conn.encoder_id else none
  match enc with
  | some e => some e
  | none =>
    match conn.encoders with
    | [] => none
    | id :: _ => dev.get_encoder id

/-- The CRTC scan of `main` (lines 457-463), from index `i` on: the first CRTC whose bit is
set in `possible_crtcs`, or 0. -/
def find_crtc (enc : Option drm_encoder) : Nat → List Nat → Nat
  | _, [] => 0
  | i, c :: cs =>
    match enc with
    | some e => if e.possible_crtcs &&& u32 (1 <<< i) ≠ 0 then c else find_crtc enc (i + 1) cs
    | none => find_crtc enc (i + 1) cs

/-- The state of the allocation loop of `main`: the array `bufs`, the log, and whether a
`modeset_create_fb` call has failed. -/
structure alloc_state where
  bufs : Int → buffer_object
  log : List Event
  failed : Bool

/-- One iteration of the allocation loop of `main` (lines 478-486). -/
def alloc_step (dev : drm_device) (conn : drm_connector) (st : alloc_state) (i : Nat) :
    alloc_state :=
  if st.failed then st
  else
    let bo := { st.bufs i with width := conn.hdisplay, height := conn.vdisplay }
    let res := modeset_create_fb (dev.create i) bo
    if res.1 < 0 then
      { bufs := fun j => if j = (i : Int) then res.2 else st.bufs j
        log := st.log ++ [Event.CreateFb i res.1]
        failed := true }
    else
      { bufs := fun j => if j = (i : Int) then res.2 else st.bufs j
        log := st.log ++ [Event.CreateFb i res.1, Event.Memset i]
        failed := false }

/-- The array `bufs` of `main` as initialised on line 409. -/
def bufs_zero : Int → buffer_object :=
  fun _ => { width := 0, height := 0, pitch := 0, handle := 0, size := 0, fb_id := 0 }

/-- The selector `mode_choice` of `main` (lines 410-413); `argv1` is `argv[1]` when
`argc > 1`. -/
def mode_choice (argv1 : Option String) : Int :=
  let m0 : Int := 0
  let m1 : Int := if argv1 = some "--pageflip" then 1 else m0
  if argv1 = some "--singlebuf" then 2 else m1

/-- The strategy selected by `main` (lines 488-494), run against `oracle`; the racing
strategy is observed for `iters` iterations. The result is the log and whether the strategy
returned. -/
def run_strategy (choice : Int) (bufs : Int → buffer_object) (oracle : List Int)
    (iters : Nat) : List Event × Bool :=
  if choice = 0 then run_tearing_demo bufs oracle
  else if choice = 1 then
    ((run_pageflip_demo bufs oracle).log,
      decide ((run_pageflip_demo bufs oracle).pc = pf_pc.returned))
  else
    match oracle with
    | [] => ([], false)
    | r :: _ => run_single_buffer_tearing bufs 0 r iters

/-- The teardown of `main` (lines 496-502). -/
def teardown : List Event :=
  (List.range MAX_BUFFERS).map (fun i => Event.DestroyFb (i : Int)) ++
    [Event.FreeConnector, Event.FreeResources, Event.Close]

/-- The function `main` (lines 402-504): the log of the surface and strategy calls, and the
exit status (`none` while the strategy is still running). -/
def main (argv1 : Option String) (dev : drm_device) (oracle : List Int) (iters : Nat) :
    List Event × Option Int :=
  if dev.open_ret < 0 then ([], some (-1))
  else
    match dev.resources with
    | none => ([], some (-1))
    | some res =>
      match find_connector dev res.connectors with
      | none => ([], some (-1))
      | some conn =>
        let crtc_id := find_crtc (find_encoder dev conn) 0 res.crtcs
        if crtc_id = 0 then ([], some (-1))
        else
          let st := (List.range MAX_BUFFERS).foldl (alloc_step dev conn)
            { bufs := bufs_zero, log := [], failed := false }
          if st.failed then (st.log, some (-1))
          else
            let run := run_strategy (mode_choice argv1) st.bufs oracle iters
            if run.2 then (st.log ++ run.1 ++ teardown, some 0)
            else (st.log ++ run.1, none)

/-! ### Sample devices and observations on the log of `main` -/

/-- Answers of a `modeset_create_fb` call that succeeds, for a 1920 x 1080 surface. -/
def fb_good (i : Nat) : fb_answers :=
  { create_dumb := 0, pitch := 7680, size := 8294400, handle := i + 1, add_fb := 0,
    fb_id := 40 + i, map_dumb := 0, mmap_failed := false }

/-- A connected 1920 x 1080 connector. -/
def conn_good : drm_connector :=
  { connector_id := 7, connected := true, count_modes := 1, encoder_id := 3,
    encoders := [3], hdisplay := 1920, vdisplay := 1080 }

/-- A device on which discovery and both surface creations succeed. -/
def dev_good : drm_device :=
  { open_ret := 3
    resources := some { connectors := [7], crtcs := [11] }
    get_connector := fun _ => some conn_good
    get_encoder := fun _ => some { possible_crtcs := 1 }
    create := fb_good }

/-- The device `dev_good`, except that the creation of the second surface fails in
`DRM_IOCTL_MODE_CREATE_DUMB`. -/
def dev_second_fb_fails : drm_device :=
  { dev_good with
    create := fun i => if i = 1 then { fb_good i with create_dumb := -1 } else fb_good i }

/-- The `modeset_destroy_fb` calls of a log: the surface indices, in order. -/
def destroyed : List Event → List Int
  | [] => []
  | Event.DestroyFb i :: t => i :: destroyed t
  | _ :: t => destroyed t

/-- The successful `modeset_create_fb` calls of a log: the surface indices, in order. -/
def created : List Event → List Int
  | [] => []
  | Event.CreateFb i r :: t => if r = 0 then i :: created t else created t
  | _ :: t => created t

/-- The event is one of the allocation loop of `main`. -/
def Event.is_alloc : Event → Bool
  | Event.CreateFb _ _ => true
  | Event.Memset _ => true
  | _ => false

/-- The event is a surface creation or teardown call of `main`. -/
def Event.is_main_call : Event → Bool
  | Event.CreateFb _ _ => true
  | Event.Memset _ => true
  | Event.DestroyFb _ => true
  | Event.FreeConnector => true
  | Event.FreeResources => true
  | Event.Close => true
  | _ => false

/-! ### Period of the bounce -/

/-- The number `ceil((W - 80) / 8)` of steps the bar needs to cross a display of width
`W ≥ 80`. -/
def half_period (W : Int) : Nat := ((W - 80 + 7) / 8).toNat

/-- The part of the animation state that a frame shows and that `update_animation` reads:
position, width and direction (all but `frame_count`). -/
def phase (anim : animation_state) : Int × Int × Int :=
  (anim.bar_x, anim.bar_width, anim.direction)

/-! ### The surface claimed by the display engine -/

/-- What the display engine holds, as tracked along a log: the surface it has `claimed`
(the one last bound by a successful `drmModeSetCrtc`, or the one of the latest flip whose
completion callback has run) and the surface of the flip request still `inflight`
(requested with success, completion callback not yet run). -/
structure scanout where
  claimed : Option Int
  inflight : Option Int
  deriving DecidableEq, Repr

/-- The effect of one event on the tracked display engine. -/
def scanout_step (st : scanout) (e : Event) : scanout :=
  match e with
  | Event.SetCrtc fb r => if r = 0 then { st with claimed := some fb } else st
  | Event.PageFlip fb r => if r = 0 then { st with inflight := some fb } else st
  | Event.FlipHandler =>
    match st.inflight with
    | some fb => { claimed := some fb, inflight := none }
    | none => st
  | _ => st

/-- The tracked display engine after a log. -/
def scanout_of (log : List Event) : scanout :=
  log.foldl scanout_step { claimed := none, inflight := none }

/-- Every `draw_moving_bar` call of the log is made while no flip request is in flight and
targets the surface other than the claimed one. -/
def draws_ok (log : List Event) : Prop :=
  ∀ pre post fb a, log = pre ++ Event.Draw fb a :: post →
    (scanout_of pre).inflight = none ∧ (scanout_of pre).claimed = some (1 - fb)

/-- The invariant of `run_pageflip_demo` that relates `cur` and `back` to the tracked
display engine. -/
def scan_inv (s : pf_state) : Prop :=
  draws_ok s.log ∧ (∀ c, (scanout_of s.log).claimed = some c → s.cur = c) ∧
  (match s.pc with
   | pf_pc.at_SetCrtc => s.log = [] ∧ s.cur = 0 ∧ s.pending.waiting = false
   | pf_pc.at_PageFlip =>
     scanout_of s.log = { claimed := some s.cur, inflight := none } ∧
     s.back = 1 - s.cur ∧ s.pending.waiting = false
   | pf_pc.at_select =>
     scanout_of s.log = { claimed := some s.cur, inflight := some s.back } ∧
     s.back = 1 - s.cur ∧ s.pending.waiting = true
   | pf_pc.at_HandleEvent =>
     scanout_of s.log = { claimed := some s.cur, inflight := some s.back } ∧
     s.back = 1 - s.cur ∧ s.pending.waiting = true
   | pf_pc.returned => True)

/-! ### Runs without a completion callback -/

/-- The invariant of `run_pageflip_demo` for runs in which no completion callback has run:
the numbers of flip requests and of renders made so far. -/
def quiet_inv (s : pf_state) : Prop :=
  s.log.countP Event.is_handler = 0 →
  (match s.pc with
   | pf_pc.at_SetCrtc =>
     s.log.countP Event.is_flip = 0 ∧ s.log.countP Event.is_draw = 0
   | pf_pc.at_PageFlip =>
     s.log.countP Event.is_flip = 0 ∧ s.log.countP Event.is_draw = 1
   | pf_pc.at_select =>
     s.pending.waiting = true ∧
     s.log.countP Event.is_flip = 1 ∧ s.log.countP Event.is_draw = 1
   | pf_pc.at_HandleEvent =>
     s.pending.waiting = true ∧
     s.log.countP Event.is_flip = 1 ∧ s.log.countP Event.is_draw = 1
   | pf_pc.returned =>
     s.log.countP Event.is_flip ≤ 1 ∧ s.log.countP Event.is_draw ≤ 1)

/-- The invariant of `run_pageflip_demo` once the first flip has been requested with
success, for runs in which no completion callback has run. -/
def quiet_started (s : pf_state) : Prop :=
  s.log.countP Event.is_handler = 0 →
  (s.pending.waiting = true ∨ s.pc = pf_pc.returned) ∧
  (s.pc = pf_pc.at_select ∨ s.pc = pf_pc.at_HandleEvent ∨ s.pc = pf_pc.returned) ∧
  s.log.countP Event.is_flip = 1 ∧ s.log.countP Event.is_draw = 1

/-- The last event of the log is a `select` call. -/
def ends_with_select (log : List Event) : Bool :=
  match log.getLast? with
  | some (Event.Select _) => true
  | _ => false

/-- Every `select` call of the log but a last one is matched by a `drmHandleEvent`
call. -/
def sel_ok (log : List Event) : Prop :=
  log.countP Event.is_select =
    log.countP Event.is_dispatch + (if ends_with_select log then 1 else 0)

/-- The invariant of `run_pageflip_demo` that relates `select` calls and dispatches. -/
def sel_inv (s : pf_state) : Prop :=
  sel_ok s.log ∧
  (match s.pc with
   | pf_pc.at_HandleEvent => ends_with_select s.log = true
   | pf_pc.returned => True
   | _ => ends_with_select s.log = false)

/-- Two 1920 x 1080 surfaces. -/
def bufs_hd : Int → buffer_object :=
  fun _ => { width := 1920, height := 1080, pitch := 7680, handle := 1, size := 8294400,
             fb_id := 40 }

/-! ## Theorems -/

/-! ### update_animation -/

theorem animate_inv (W : Int) (hW : 80 ≤ W) (n : Nat) :
    (animate W n).bar_width = 80 ∧
    ((animate W n).direction = 1 ∨ (animate W n).direction = -1) ∧
    0 ≤ (animate W n).bar_x ∧ (animate W n).bar_x ≤ W - 80 := by
  induction n with
  | zero => simp [animate, anim_init]; omega
  | succ k ih =>
    obtain ⟨hw, hd, h0, h1⟩ := ih
    simp only [animate, update_animation]
    split_ifs with c1 c2
    · simp [hw]; omega
    · simp [hw]; omega
    · refine ⟨hw, hd, ?_, ?_⟩ <;> simp only <;> omega

theorem update_animation_no_overflow (W : Int) (hW : 80 ≤ W) (hmax : W ≤ 2 ^ 31 - 9)
    (n : Nat) : update_fits_int32 (animate W n) W := by
  obtain ⟨hw, hd, h0, h1⟩ := animate_inv W hW n
  simp only [update_fits_int32, hw]
  rcases hd with hd | hd <;> rw [hd] <;> norm_num <;> omega

/-- C1. Boundary clamp invariant: for every display width `W ≥ 80` and every `n`, after `n`
calls of `update_animation` from the initial state the bar keeps its width 80 and its
leading edge satisfies `0 ≤ bar_x ≤ W - bar_width`, so the bar `[bar_x, bar_x + bar_width)`
lies on the surface. -/
theorem C1_boundary_clamp (W : Int) (hW : 80 ≤ W) (n : Nat) :
    (animate W n).bar_width = 80 ∧
    0 ≤ (animate W n).bar_x ∧
    (animate W n).bar_x ≤ W - (animate W n).bar_width ∧
    (animate W n).bar_x + (animate W n).bar_width ≤ W := by
  obtain ⟨hw, -, h0, h1⟩ := animate_inv W hW n
  rw [hw]
  omega

theorem C1_boundary_clamp_witness :
    (80 : Int) ≤ 100 ∧
    ((animate 100 3).bar_width = 80 ∧
     0 ≤ (animate 100 3).bar_x ∧
     (animate 100 3).bar_x ≤ 100 - (animate 100 3).bar_width ∧
     (animate 100 3).bar_x + (animate 100 3).bar_width ≤ 100) :=
  ⟨by decide, C1_boundary_clamp 100 (by decide) 3⟩

/-- C4. Direction flips exactly at the two boundaries: for `W ≥ 80` and every state `s`
reached from the initial state, with stepped position `p = s.bar_x + 8 * s.direction`, one
call of `update_animation` negates the direction iff `p + bar_width ≥ W` or `p ≤ 0`; it
then puts `bar_x` on the boundary touched (`W - bar_width`, respectively `0`); otherwise
the direction is unchanged and `bar_x = p`. -/
theorem C4_direction_flips (W : Int) (hW : 80 ≤ W) (n : Nat) :
    ((update_animation (animate W n) W).direction = -(animate W n).direction ↔
      ((animate W n).bar_x + 8 * (animate W n).direction + (animate W n).bar_width ≥ W ∨
       (animate W n).bar_x + 8 * (animate W n).direction ≤ 0)) ∧
    ((animate W n).bar_x + 8 * (animate W n).direction + (animate W n).bar_width ≥ W →
      (update_animation (animate W n) W).bar_x = W - (animate W n).bar_width) ∧
    ((animate W n).bar_x + 8 * (animate W n).direction ≤ 0 →
      (update_animation (animate W n) W).bar_x = 0) ∧
    (¬ ((animate W n).bar_x + 8 * (animate W n).direction + (animate W n).bar_width ≥ W ∨
        (animate W n).bar_x + 8 * (animate W n).direction ≤ 0) →
      (update_animation (animate W n) W).direction = (animate W n).direction ∧
      (update_animation (animate W n) W).bar_x
        = (animate W n).bar_x + 8 * (animate W n).direction) := by
  obtain ⟨hw, hd, h0, h1⟩ := animate_inv W hW n
  generalize animate W n = s at *
  simp only [update_animation]
  rcases hd with hd | hd <;> rw [hd, hw] <;> split_ifs with c1 c2 <;> simp <;> omega

theorem C4_direction_flips_witness :
    (80 : Int) ≤ 100 ∧
    (update_animation (animate 100 2) 100).direction = -(animate 100 2).direction :=
  ⟨by decide, (C4_direction_flips 100 (by decide) 2).1.2 (by decide)⟩

/-! ### draw_moving_bar -/

theorem foldl_write_miss {α : Type} (off val : α → Nat) (xs : List α) (px : Nat → Nat)
    (o : Nat) (h : ∀ x ∈ xs, off x ≠ o) :
    (xs.foldl (fun p x => write_word p (off x) (val x)) px) o = px o := by
  induction xs using List.reverseRecOn with
  | nil => rfl
  | append_singleton t a ih =>
    rw [List.foldl_append]
    have ha : o ≠ off a := fun e => h a (by simp) e.symm
    simp only [List.foldl_cons, List.foldl_nil, write_word, if_neg ha]
    exact ih (fun x hx => h x (by simp [hx]))

theorem foldl_write_hit {α : Type} (off val : α → Nat) (xs : List α) (px : Nat → Nat)
    (x0 : α) (hx0 : x0 ∈ xs) (h : ∀ x ∈ xs, off x = off x0 → x = x0) :
    (xs.foldl (fun p x => write_word p (off x) (val x)) px) (off x0) = val x0 := by
  induction xs using List.reverseRecOn with
  | nil => simp at hx0
  | append_singleton t a ih =>
    rw [List.foldl_append]
    simp only [List.foldl_cons, List.foldl_nil, write_word]
    by_cases e : off x0 = off a
    · rw [if_pos e, h a (by simp) e.symm]
    · rw [if_neg e]
      have hx0t : x0 ∈ t := by
        rcases List.mem_append.mp hx0 with h1 | h1
        · exact h1
        · simp at h1; subst h1; exact absurd rfl e
      exact ih hx0t (fun x hx => h x (by simp [hx]))

theorem draw_row_eq (bo : buffer_object) (anim : animation_state) (y : Nat)
    (pixel : Nat → Nat) :
    draw_row bo anim y pixel =
      (List.range bo.width).foldl (fun p x => write_word p (pixel_offset bo y x)
        (if int_of_u32 x ≥ anim.bar_x ∧ int_of_u32 x < int32 (anim.bar_x + anim.bar_width)
          then bar_color else bg_color)) pixel := by
  unfold draw_row draw_pixel
  congr 1
  funext p x
  split_ifs <;> rfl

theorem pixel_offset_exact (bo : buffer_object) (hs : bo.width ≤ bo.pitch / 4)
    (hno : bo.height * (bo.pitch / 4) ≤ 2 ^ 32) (y x : Nat) (hy : y < bo.height)
    (hx : x < bo.width) : pixel_offset bo y x = y * (bo.pitch / 4) + x := by
  have h1 : (y + 1) * (bo.pitch / 4) ≤ bo.height * (bo.pitch / 4) :=
    Nat.mul_le_mul_right _ hy
  have h2 : y * (bo.pitch / 4) + x < 2 ^ 32 := by
    have : (y + 1) * (bo.pitch / 4) = y * (bo.pitch / 4) + bo.pitch / 4 := by ring
    omega
  have h3 : y * (bo.pitch / 4) < 2 ^ 32 := by omega
  unfold pixel_offset u32
  rw [Nat.mod_eq_of_lt h3, Nat.mod_eq_of_lt h2]

theorem offset_inj (s : Nat) (y x y0 x0 : Nat) (hx : x < s) (hx0 : x0 < s)
    (h : y * s + x = y0 * s + x0) : y = y0 ∧ x = x0 := by
  have hy : y = y0 := by
    rcases Nat.lt_trichotomy y y0 with hlt | heq | hgt
    · have : (y + 1) * s ≤ y0 * s := Nat.mul_le_mul_right _ hlt
      have e : (y + 1) * s = y * s + s := by ring
      omega
    · exact heq
    · have : (y0 + 1) * s ≤ y * s := Nat.mul_le_mul_right _ hgt
      have e : (y0 + 1) * s = y0 * s + s := by ring
      omega
  subst hy
  exact ⟨rfl, by omega⟩

theorem draw_row_hit (bo : buffer_object) (anim : animation_state) (pixel : Nat → Nat)
    (hs : bo.width ≤ bo.pitch / 4) (hno : bo.height * (bo.pitch / 4) ≤ 2 ^ 32)
    (y x : Nat) (hy : y < bo.height) (hx : x < bo.width) :
    draw_row bo anim y pixel (y * (bo.pitch / 4) + x) =
      (if int_of_u32 x ≥ anim.bar_x ∧ int_of_u32 x < int32 (anim.bar_x + anim.bar_width)
        then bar_color else bg_color) := by
  rw [draw_row_eq, ← pixel_offset_exact bo hs hno y x hy hx]
  apply foldl_write_hit (fun x => pixel_offset bo y x) _ _ _ x (List.mem_range.mpr hx)
  intro x1 hx1 e
  have hx1w : x1 < bo.width := List.mem_range.mp hx1
  simp only [pixel_offset_exact bo hs hno y _ hy hx1w,
    pixel_offset_exact bo hs hno y _ hy hx] at e
  omega

theorem draw_row_miss (bo : buffer_object) (anim : animation_state) (pixel : Nat → Nat)
    (hs : bo.width ≤ bo.pitch / 4) (hno : bo.height * (bo.pitch / 4) ≤ 2 ^ 32)
    (y y0 x0 : Nat) (hy : y < bo.height) (hx0 : x0 < bo.width) (hne : y ≠ y0) :
    draw_row bo anim y pixel (y0 * (bo.pitch / 4) + x0) =
      pixel (y0 * (bo.pitch / 4) + x0) := by
  rw [draw_row_eq]
  apply foldl_write_miss (fun x => pixel_offset bo y x)
  intro x1 hx1 e
  have hx1w : x1 < bo.width := List.mem_range.mp hx1
  simp only [pixel_offset_exact bo hs hno y _ hy hx1w] at e
  exact hne (offset_inj (bo.pitch / 4) y x1 y0 x0 (by omega) (by omega) e).1

theorem draw_rows_hit (bo : buffer_object) (anim : animation_state)
    (hs : bo.width ≤ bo.pitch / 4) (hno : bo.height * (bo.pitch / 4) ≤ 2 ^ 32)
    (y x : Nat) (hx : x < bo.width) (n : Nat) (hn : n ≤ bo.height) (hy : y < n)
    (pixel : Nat → Nat) :
    (List.range n).foldl (fun px y => draw_row bo anim y px) pixel
        (y * (bo.pitch / 4) + x) =
      (if int_of_u32 x ≥ anim.bar_x ∧ int_of_u32 x < int32 (anim.bar_x + anim.bar_width)
        then bar_color else bg_color) := by
  induction n with
  | zero => omega
  | succ k ih =>
    rw [List.range_succ, List.foldl_append]
    simp only [List.foldl_cons, List.foldl_nil]
    by_cases e : k = y
    · subst e
      exact draw_row_hit bo anim _ hs hno k x (by omega) hx
    · rw [draw_row_miss bo anim _ hs hno k y x (by omega) hx e]
      exact ih (by omega) (by omega)

theorem int_of_u32_small (x : Nat) (h : x < 2 ^ 31) : int_of_u32 x = (x : Int) := by
  have h1 : x % 2 ^ 32 = x := Nat.mod_eq_of_lt (by omega)
  unfold int_of_u32
  rw [h1, if_pos h]

theorem int32_of_fits (z : Int) (h : -(2 ^ 31) ≤ z ∧ z < 2 ^ 31) : int32 z = z := by
  unfold int32
  omega

theorem mapped_no_wrap (bo : buffer_object) (hwf : bo.wf) (hmap : bo.mapped) :
    bo.height * (bo.pitch / 4) ≤ 2 ^ 32 := by
  have hsz : bo.size < 2 ^ 32 := hwf.2.2.2.2.1
  have h1 : bo.pitch / 4 * 4 ≤ bo.pitch := Nat.div_mul_le_self bo.pitch 4
  have h2 : bo.height * (bo.pitch / 4) * 4 ≤ bo.pitch * bo.height := by
    calc bo.height * (bo.pitch / 4) * 4 = bo.height * (bo.pitch / 4 * 4) := by ring
      _ ≤ bo.height * bo.pitch := Nat.mul_le_mul_left _ h1
      _ = bo.pitch * bo.height := by ring
  unfold buffer_object.mapped at hmap
  omega

theorem animate_sum_fits (W : Int) (hW : 80 ≤ W) (hmax : W < 2 ^ 31) (n : Nat) :
    -(2 ^ 31) ≤ (animate W n).bar_x + (animate W n).bar_width ∧
    (animate W n).bar_x + (animate W n).bar_width < 2 ^ 31 := by
  obtain ⟨hw, -, h0, h1⟩ := animate_inv W hW n
  rw [hw]
  omega

/-- C5. `draw_moving_bar` repaints the whole surface: for every buffer (its fields
`uint32_t` values, its mapping of `size` bytes holding the `height` rows of `pitch` bytes)
whose row stride in 32-bit words `pitch / 4` is at least `width`, and every animation
state (on which the `int` sum `bar_x + bar_width` of line 73 is defined, that is, does not
overflow), after `draw_moving_bar` the word at offset `y * (pitch / 4) + x` holds
`0xffffff` when `bar_x ≤ x < bar_x + bar_width` and `0x202020` otherwise, for every
`x < width` and `y < height`. -/
theorem C5_draw_repaints (bo : buffer_object) (anim : animation_state) (pixel : Nat → Nat)
    (hwf : bo.wf) (hmap : bo.mapped) (hs : bo.width ≤ bo.pitch / 4)
    (hsum : -(2 ^ 31) ≤ anim.bar_x + anim.bar_width ∧ anim.bar_x + anim.bar_width < 2 ^ 31)
    (x y : Nat) (hx : x < bo.width) (hy : y < bo.height) :
    draw_moving_bar bo anim pixel (y * (bo.pitch / 4) + x) =
      (if anim.bar_x ≤ (x : Int) ∧ (x : Int) < anim.bar_x + anim.bar_width
        then 0xffffff else 0x202020) := by
  have hno := mapped_no_wrap bo hwf hmap
  have hp : bo.pitch < 2 ^ 32 := hwf.2.2.1
  have hx31 : x < 2 ^ 31 := by omega
  unfold draw_moving_bar
  rw [draw_rows_hit bo anim hs hno y x hx bo.height le_rfl hy pixel, int_of_u32_small x hx31,
    int32_of_fits _ hsum]
  rfl

theorem C5_draw_repaints_witness :
    draw_moving_bar small_bo anim_init (fun _ => 0) (1 * (small_bo.pitch / 4) + 2) =
      (if anim_init.bar_x ≤ ((2 : Nat) : Int) ∧
          ((2 : Nat) : Int) < anim_init.bar_x + anim_init.bar_width
        then 0xffffff else 0x202020) :=
  C5_draw_repaints small_bo anim_init (fun _ => 0) (by decide) (by decide) (by decide)
    (by decide) 2 1 (by decide) (by decide)

/-! ### run_pageflip_demo -/

theorem snoc_eq_append_cons {α : Type} (l pre rest : List α) (e x : α)
    (h : l ++ [e] = pre ++ x :: rest) :
    (rest = [] ∧ l = pre ∧ e = x) ∨
      (∃ rest1, rest = rest1 ++ [e] ∧ l = pre ++ x :: rest1) := by
  rcases List.eq_nil_or_concat rest with h0 | ⟨r1, z, hz⟩
  · subst h0
    left
    have := List.append_inj' h rfl
    simp at this
    exact ⟨rfl, this.1, this.2⟩
  · subst hz
    right
    have h2 : l ++ [e] = (pre ++ x :: r1) ++ [z] := by simpa using h
    have := List.append_inj' h2 rfl
    simp at this
    exact ⟨r1, by simp [this.2], this.1⟩

theorem since_flip_snoc (log : List Event) (e : Event) :
    since_flip (log ++ [e]) =
      if e.is_flip then some 0
      else if e.is_handler then (since_flip log).map (· + 1) else since_flip log := by
  cases e <;> simp [since_flip, List.foldl_append, Event.is_flip, Event.is_handler]

theorem since_ok_snoc (log : List Event) (e : Event) (h : since_ok log) :
    since_ok (log ++ [e]) := by
  unfold since_ok at h ⊢
  rw [since_flip_snoc]
  by_cases hf : e.is_flip = true
  · rw [if_pos hf]
    intro pre mid f r hdec hmid
    rcases snoc_eq_append_cons _ _ _ _ _ hdec with ⟨h1, -, -⟩ | ⟨m1, h1, -⟩
    · simp [h1]
    · have := hmid e (by simp [h1])
      simp [hf] at this
  · rw [if_neg hf]
    have hf0 : e.is_flip = false := by simpa using hf
    cases hst : since_flip log with
    | none =>
      rw [hst] at h
      have : (if e.is_handler = true then Option.map (· + 1) (none : Option Nat) else none)
          = none := by split_ifs <;> rfl
      rw [this]
      intro x hx
      rcases List.mem_append.mp hx with hx | hx
      · exact h x hx
      · simp at hx; subst hx; exact hf0
    | some k =>
      rw [hst] at h
      by_cases hh : e.is_handler = true
      · rw [if_pos hh]
        intro pre mid f r hdec hmid
        rcases snoc_eq_append_cons _ _ _ _ _ hdec with ⟨-, -, h3⟩ | ⟨m1, h1, h2⟩
        · subst h3; simp [Event.is_flip] at hf0
        · subst h1
          have := h pre m1 f r h2 (fun x hx => hmid x (by simp [hx]))
          simp [List.countP_append, this, hh]
      · rw [if_neg hh]
        intro pre mid f r hdec hmid
        rcases snoc_eq_append_cons _ _ _ _ _ hdec with ⟨-, -, h3⟩ | ⟨m1, h1, h2⟩
        · subst h3; simp [Event.is_flip] at hf0
        · subst h1
          have := h pre m1 f r h2 (fun x hx => hmid x (by simp [hx]))
          simp [List.countP_append, this, hh]

theorem flips_spaced_snoc (log : List Event) (e : Event) (h : flips_spaced log)
    (hs : since_ok log)
    (he : e.is_flip = true → since_flip log = none ∨ since_flip log = some 1) :
    flips_spaced (log ++ [e]) := by
  intro pre mid post f1 r1 f2 r2 hdec hmid
  rcases snoc_eq_append_cons _ _ _ _ _ hdec with ⟨h1, -, -⟩ | ⟨m1, h1, h2⟩
  · simp at h1
  · rcases snoc_eq_append_cons _ _ _ _ _ h1.symm with ⟨-, h4, h5⟩ | ⟨p1, h3, h4⟩
    · subst h4
      have hf : e.is_flip = true := by rw [h5]; rfl
      unfold since_ok at hs
      rcases he hf with h6 | h6
      · rw [h6] at hs
        have := hs (Event.PageFlip f1 r1) (by simp [h2])
        simp [Event.is_flip] at this
      · rw [h6] at hs
        exact hs pre m1 f1 r1 h2 hmid
    · subst h4
      exact h pre mid p1 f1 r1 f2 r2 h2 hmid

theorem flip_ok_is_flip (e : Event) (h : e.is_flip = false) : e.is_flip_ok = false := by
  cases e <;> simp_all [Event.is_flip, Event.is_flip_ok]

theorem log_inv_plain (log : List Event) (w : Bool) (e : Event) (hf : e.is_flip = false)
    (hh : e.is_handler = false) (h : log_inv log w) :
    log_inv (log ++ [e]) w ∧ since_flip (log ++ [e]) = since_flip log := by
  obtain ⟨h1, h2, h3⟩ := h
  refine ⟨⟨flips_spaced_snoc log e h1 h2 (by simp [hf]), since_ok_snoc log e h2, ?_⟩, ?_⟩
  · simp [List.countP_append, h3, hh, flip_ok_is_flip e hf]
  · rw [since_flip_snoc]; simp [hf, hh]

theorem log_inv_flip (log : List Event) (fb r : Int) (h : log_inv log false)
    (hs : since_flip log = none ∨ since_flip log = some 1) :
    log_inv (log ++ [Event.PageFlip fb r]) (decide (r = 0)) ∧
    since_flip (log ++ [Event.PageFlip fb r]) = some 0 := by
  obtain ⟨h1, h2, h3⟩ := h
  refine ⟨⟨flips_spaced_snoc log _ h1 h2 (fun _ => hs), since_ok_snoc log _ h2, ?_⟩, ?_⟩
  · simp only [List.countP_append, h3]
    by_cases hr : r = 0 <;> simp [Event.is_flip_ok, Event.is_handler, hr]
  · rw [since_flip_snoc]; simp [Event.is_flip]

theorem log_inv_handler (log : List Event) (h : log_inv log true)
    (hs : since_flip log = some 0) :
    log_inv (log ++ [Event.FlipHandler]) false ∧
    since_flip (log ++ [Event.FlipHandler]) = some 1 := by
  obtain ⟨h1, h2, h3⟩ := h
  refine ⟨⟨flips_spaced_snoc log _ h1 h2 (by simp [Event.is_flip]),
    since_ok_snoc log _ h2, ?_⟩, ?_⟩
  · simp [List.countP_append, h3, Event.is_flip_ok, Event.is_handler]
  · rw [since_flip_snoc]; simp [Event.is_flip, Event.is_handler, hs]

theorem pf_loop_head_inv (bufs : Int → buffer_object) (s : pf_state)
    (h : log_inv s.log false) (hw : s.pending.waiting = false)
    (hs : since_flip s.log = none ∨ since_flip s.log = some 1) :
    pf_inv (pf_loop_head bufs s) := by
  obtain ⟨h1, h2⟩ := log_inv_plain s.log false (Event.Draw (1 - s.cur) s.anim) rfl rfl h
  simp only [pf_inv, pf_loop_head, hw]
  exact ⟨h1, trivial, by rw [h2]; exact hs⟩

theorem pf_init_inv : pf_inv pf_init := by
  refine ⟨⟨?_, ?_, ?_⟩, ?_⟩
  · intro pre mid post f1 r1 f2 r2 h
    simp [pf_init] at h
  · simp [since_ok, since_flip, pf_init]
  · simp [pf_init]
  · simp [pf_init, since_flip]

theorem pf_step_inv (bufs : Int → buffer_object) (s : pf_state) (r : Int) (h : pf_inv s) :
    pf_inv (pf_step bufs s r) := by
  obtain ⟨hl, hpc⟩ := h
  unfold pf_step
  cases hc : s.pc <;> rw [hc] at hpc <;> simp only at hpc ⊢
  · -- at_SetCrtc
    obtain ⟨hw, hs⟩ := hpc
    rw [hw] at hl
    obtain ⟨h1, h2⟩ := log_inv_plain s.log false (Event.SetCrtc s.cur r) rfl rfl hl
    split_ifs with hr
    · exact ⟨by simpa [hw] using h1, trivial⟩
    · apply pf_loop_head_inv
      · exact h1
      · exact hw
      · left; rw [h2]; exact hs
  · -- at_PageFlip
    obtain ⟨hw, hs⟩ := hpc
    rw [hw] at hl
    obtain ⟨h1, h2⟩ := log_inv_flip s.log s.back r hl hs
    split_ifs with hr
    · refine ⟨?_, trivial⟩
      simpa [hw, hr] using h1
    · have hr0 : r = 0 := by simpa using hr
      simp only [pf_wait_head, if_true]
      refine ⟨?_, ?_⟩
      · simpa [hr0] using h1
      · exact ⟨rfl, h2⟩
  · -- at_select
    obtain ⟨hw, hs⟩ := hpc
    rw [hw] at hl
    obtain ⟨h1, h2⟩ := log_inv_plain s.log true (Event.Select r) rfl rfl hl
    split_ifs
    · exact ⟨by simpa [hw] using h1, trivial⟩
    · exact ⟨by simpa [hw] using h1, trivial⟩
    · exact ⟨by simpa [hw] using h1, hw, by rw [← hs]; exact h2⟩
  · -- at_HandleEvent
    obtain ⟨hw, hs⟩ := hpc
    rw [hw] at hl
    obtain ⟨h1, h2⟩ := log_inv_plain s.log true Event.HandleEvent rfl rfl hl
    split_ifs with hr
    · obtain ⟨h3, h4⟩ := log_inv_handler _ h1 (by rw [h2]; exact hs)
      simp only [pf_wait_head, page_flip_handler]
      apply pf_loop_head_inv
      · exact h3
      · rfl
      · right; exact h4
    · simp only [pf_wait_head, hw, if_true]
      exact ⟨by simpa [hw] using h1, hw, by rw [← hs]; exact h2⟩
  · refine ⟨hl, ?_⟩
    rw [hc]
    trivial

theorem foldl_pf_inv (bufs : Int → buffer_object) (oracle : List Int) (s : pf_state)
    (h : pf_inv s) : pf_inv (oracle.foldl (pf_step bufs) s) := by
  induction oracle generalizing s with
  | nil => exact h
  | cons r rs ih => exact ih _ (pf_step_inv bufs s r h)

theorem run_pageflip_inv (bufs : Int → buffer_object) (oracle : List Int) :
    pf_inv (run_pageflip_demo bufs oracle) :=
  foldl_pf_inv bufs oracle pf_init pf_init_inv

theorem timeout_inv_of_not_mem (s : pf_state) (h : Event.Select 0 ∉ s.log) :
    timeout_inv s := by
  refine ⟨fun _ => h, ?_⟩
  intro pre post hdec
  exact absurd (by rw [hdec]; simp) h

theorem pf_step_timeout_inv (bufs : Int → buffer_object) (s : pf_state) (r : Int)
    (h : timeout_inv s) : timeout_inv (pf_step bufs s r) := by
  by_cases hret : s.pc = pf_pc.returned
  · simpa [pf_step, hret] using h
  · have hno := h.1 hret
    unfold pf_step
    cases hc : s.pc <;> simp only
    · split_ifs <;> apply timeout_inv_of_not_mem <;> simp [pf_loop_head, hno]
    · split_ifs <;> apply timeout_inv_of_not_mem <;> simp [pf_wait_head, pf_loop_head, hno]
    · split_ifs with h1 h2
      · apply timeout_inv_of_not_mem
        simp only [List.mem_append, List.mem_singleton, not_or]
        exact ⟨hno, fun e => by injection e with e; omega⟩
      · subst h2
        refine ⟨fun hne => absurd rfl hne, ?_⟩
        intro pre post hdec
        rcases snoc_eq_append_cons _ _ _ _ _ hdec with ⟨h3, -, -⟩ | ⟨p1, -, h4⟩
        · exact ⟨h3, rfl⟩
        · exact absurd (by rw [h4]; simp) hno
      · apply timeout_inv_of_not_mem
        simp only [List.mem_append, List.mem_singleton, not_or]
        exact ⟨hno, fun e => by injection e with e; omega⟩
    · split_ifs
      · apply timeout_inv_of_not_mem
        simp [pf_wait_head, pf_loop_head, page_flip_handler, hno]
      · apply timeout_inv_of_not_mem
        simp only [pf_wait_head, pf_loop_head]
        split_ifs <;> simp [hno]
    · exact absurd hc hret

theorem run_pageflip_timeout_inv (bufs : Int → buffer_object) (oracle : List Int) :
    timeout_inv (run_pageflip_demo bufs oracle) := by
  have key : ∀ (rs : List Int) (s : pf_state), timeout_inv s →
      timeout_inv (rs.foldl (pf_step bufs) s) := by
    intro rs
    induction rs with
    | nil => intro s h; exact h
    | cons r rs ih => intro s h; exact ih _ (pf_step_timeout_inv bufs s r h)
  exact key oracle pf_init (timeout_inv_of_not_mem _ (by simp [pf_init]))

theorem foldl_returned (bufs : Int → buffer_object) (rs : List Int) (s : pf_state)
    (h : s.pc = pf_pc.returned) : rs.foldl (pf_step bufs) s = s := by
  induction rs with
  | nil => rfl
  | cons r rs ih =>
    have : pf_step bufs s r = s := by simp [pf_step, h]
    rw [List.foldl_cons, this, ih]

/-- C2. At most one deferred commit is outstanding in `run_pageflip_demo`, for every oracle
(every finite sequence of answers of `drmModeSetCrtc`, `drmModePageFlip`, `select` and
`drmHandleEvent`): (a) whenever the function is about to call `drmModePageFlip`,
`pending.waiting` is false; (b) when that call succeeds the flag is true and the function
waits in `select`; (c) `page_flip_handler` clears the flag, and it is false after a
dispatch that ran the handler; (d) between any two consecutive `drmModePageFlip` calls of
the log exactly one `page_flip_handler` ran; (e) the successful requests outnumber the
completions by one when the flag is set and by zero otherwise. -/
theorem C2_single_outstanding_flip (bufs : Int → buffer_object) (oracle : List Int) :
    ((run_pageflip_demo bufs oracle).pc = pf_pc.at_PageFlip →
      (run_pageflip_demo bufs oracle).pending.waiting = false) ∧
    ((run_pageflip_demo bufs oracle).pc = pf_pc.at_PageFlip →
      (pf_step bufs (run_pageflip_demo bufs oracle) 0).pending.waiting = true ∧
      (pf_step bufs (run_pageflip_demo bufs oracle) 0).pc = pf_pc.at_select) ∧
    (∀ p : flip_pending, (page_flip_handler p).waiting = false) ∧
    ((run_pageflip_demo bufs oracle).pc = pf_pc.at_HandleEvent → ∀ r : Int, r ≠ 0 →
      (pf_step bufs (run_pageflip_demo bufs oracle) r).pending.waiting = false) ∧
    (∀ pre mid post f1 r1 f2 r2,
      (run_pageflip_demo bufs oracle).log =
        pre ++ Event.PageFlip f1 r1 :: (mid ++ Event.PageFlip f2 r2 :: post) →
      (∀ e ∈ mid, e.is_flip = false) → mid.countP Event.is_handler = 1) ∧
    (run_pageflip_demo bufs oracle).log.countP Event.is_flip_ok =
      (run_pageflip_demo bufs oracle).log.countP Event.is_handler +
        (if (run_pageflip_demo bufs oracle).pending.waiting then 1 else 0) := by
  obtain ⟨⟨h1, -, h3⟩, hpc⟩ := run_pageflip_inv bufs oracle
  generalize run_pageflip_demo bufs oracle = s at *
  refine ⟨?_, ?_, fun _ => rfl, ?_, h1, h3⟩
  · intro hc
    rw [hc] at hpc
    exact hpc.1
  · intro hc
    simp [pf_step, hc, pf_wait_head]
  · intro hc r hr
    simp [pf_step, hc, pf_wait_head, page_flip_handler, pf_loop_head, hr]

/-! ### run_tearing_demo -/

theorem tearing_loop_commits (bufs : Int → buffer_object) (rets : List Int) :
    ∀ (anim : animation_state) (k : Nat),
      commits (tearing_loop bufs anim ((k % 2 : Nat) : Int) rets).1 =
        ((upto_first_error rets).enumFrom k).map
          (fun p => ((((p.1 + 1) % 2 : Nat) : Int), p.2)) := by
  induction rets with
  | nil => intro anim k; simp [tearing_loop, commits, upto_first_error]
  | cons r rs ih =>
    intro anim k
    have hb : (1 : Int) - ((k % 2 : Nat) : Int) = (((k + 1) % 2 : Nat) : Int) := by omega
    simp only [tearing_loop, upto_first_error]
    split_ifs with hr
    · simp [commits]
      omega
    · simp only [commits, List.enumFrom_cons, List.map_cons]
      rw [hb, ih]

theorem tearing_loop_spec (bufs : Int → buffer_object) (rets : List Int) :
    ∀ (anim : animation_state) (cur : Int),
      (∀ pre post fb r,
        (tearing_loop bufs anim cur rets).1 = pre ++ Event.SetCrtc fb r :: post →
        (∃ pre1 a, pre = pre1 ++ [Event.Draw fb a]) ∧
        (r ≠ 0 → post = [] ∧ (tearing_loop bufs anim cur rets).2 = true)) ∧
      (∀ e ∈ (tearing_loop bufs anim cur rets).1, e.is_channel = false) := by
  induction rets with
  | nil =>
    intro anim cur
    refine ⟨?_, ?_⟩
    · intro pre post fb r h
      simp [tearing_loop, List.cons_eq_append_iff] at h
    · intro e he
      simp [tearing_loop] at he
      subst he
      rfl
  | cons r0 rs ih =>
    intro anim cur
    obtain ⟨ih1, ih2⟩ :=
      ih (update_animation anim (int_of_u32 (bufs (1 - cur)).width)) (1 - cur)
    simp only [tearing_loop]
    split_ifs with hr
    · refine ⟨?_, ?_⟩
      · intro pre post fb r h
        rcases pre with _ | ⟨a, pre⟩
        · simp at h
        · rcases pre with _ | ⟨b, pre⟩
          · simp at h
            obtain ⟨rfl, ⟨rfl, rfl⟩, rfl⟩ := h
            exact ⟨⟨[], anim, rfl⟩, fun _ => ⟨rfl, rfl⟩⟩
          · simp at h
      · intro e he
        simp at he
        rcases he with he | he <;> subst he <;> rfl
    · refine ⟨?_, ?_⟩
      · intro pre post fb r h
        rcases pre with _ | ⟨a, pre⟩
        · simp at h
        · rcases pre with _ | ⟨b, pre⟩
          · simp at h
            obtain ⟨rfl, ⟨rfl, rfl⟩, -⟩ := h
            refine ⟨⟨[], anim, rfl⟩, fun hne => ?_⟩
            simp at hr
            exact absurd hr hne
          · rcases pre with _ | ⟨c, pre⟩
            · simp at h
            · simp only [List.cons_append, List.cons.injEq] at h
              obtain ⟨h1, h2, h3, h4⟩ := h
              obtain ⟨⟨p1, a1, hp⟩, hpost⟩ := ih1 pre post fb r h4
              refine ⟨⟨a :: b :: c :: p1, a1, by simp [hp]⟩, hpost⟩
      · intro e he
        simp only [List.mem_cons] at he
        rcases he with he | he | he | he
        · subst he; rfl
        · subst he; rfl
        · subst he; rfl
        · exact ih2 e he

/-- C6. The unsynchronized strategy stops at the first commit error and never retries: for
every sequence `rets` of `drmModeSetCrtc` results, (1) the commits made by
`run_tearing_demo` are answered by `rets` up to and including the first non-zero result,
and go to the surfaces 1, 0, 1, ... in turn; (2) every commit is immediately preceded by
`draw_moving_bar` on the same surface; (3) a commit with a non-zero result is the last
event and the loop is left; (4) no event of the completion channel (`drmModePageFlip`,
`select`, `drmHandleEvent`, `page_flip_handler`) occurs. -/
theorem C6_tearing_stops_at_first_error (bufs : Int → buffer_object) (rets : List Int) :
    commits (run_tearing_demo bufs rets).1 =
      (upto_first_error rets).enum.map (fun p => ((((p.1 + 1) % 2 : Nat) : Int), p.2)) ∧
    (∀ pre post fb r, (run_tearing_demo bufs rets).1 = pre ++ Event.SetCrtc fb r :: post →
      ∃ pre1 a, pre = pre1 ++ [Event.Draw fb a]) ∧
    (∀ pre post fb r, (run_tearing_demo bufs rets).1 = pre ++ Event.SetCrtc fb r :: post →
      r ≠ 0 → post = [] ∧ (run_tearing_demo bufs rets).2 = true) ∧
    (∀ e ∈ (run_tearing_demo bufs rets).1, e.is_channel = false) := by
  obtain ⟨h1, h2⟩ := tearing_loop_spec bufs rets anim_init 0
  refine ⟨?_, fun pre post fb r h => (h1 pre post fb r h).1,
    fun pre post fb r h => (h1 pre post fb r h).2, h2⟩
  exact tearing_loop_commits bufs rets anim_init 0

/-! ### run_single_buffer_tearing -/

theorem single_buffer_loop_eq (bufs : Int → buffer_object) (bo : Int) (n : Nat) :
    ∀ k : Nat,
      single_buffer_loop bufs bo (animate (int_of_u32 (bufs bo).width) k) n =
        (List.range n).map
          (fun i => Event.Draw bo (animate (int_of_u32 (bufs bo).width) (k + i))) := by
  induction n with
  | zero => intro k; rfl
  | succ m ih =>
    intro k
    rw [single_buffer_loop, List.range_succ_eq_map, List.map_cons, List.map_map]
    have := ih (k + 1)
    simp only [animate] at this
    rw [this]
    simp [Function.comp_def, Nat.add_assoc, Nat.add_comm 1]

/-- C7. The racing in-place strategy issues no commit after the initial bind: when the
initial `drmModeSetCrtc` of `run_single_buffer_tearing` succeeds, a run of `n` loop
iterations is that one `drmModeSetCrtc` call followed by exactly `n` `draw_moving_bar`
calls, all on the bound surface `bo` (the `k`-th with the animation state after `k`
updates): one `drmModeSetCrtc`, no `drmModePageFlip` nor any other call of the completion
channel; when the initial bind fails, the function returns without any repaint. -/
theorem C7_single_buffer_no_commit (bufs : Int → buffer_object) (bo : Int) (n : Nat) :
    (run_single_buffer_tearing bufs bo 0 n).1 =
      Event.SetCrtc bo 0 :: (List.range n).map
        (fun k => Event.Draw bo (animate (int_of_u32 (bufs bo).width) k)) ∧
    (run_single_buffer_tearing bufs bo 0 n).1.countP Event.is_setcrtc = 1 ∧
    (run_single_buffer_tearing bufs bo 0 n).1.countP Event.is_flip = 0 ∧
    (∀ e ∈ (run_single_buffer_tearing bufs bo 0 n).1, e.is_channel = false) ∧
    (run_single_buffer_tearing bufs bo 0 n).1.countP Event.is_draw = n ∧
    (∀ e ∈ (run_single_buffer_tearing bufs bo 0 n).1, e.is_draw = true →
      ∃ a, e = Event.Draw bo a) ∧
    (∀ r : Int, r ≠ 0 →
      (run_single_buffer_tearing bufs bo r n).1 = [Event.SetCrtc bo r] ∧
      (run_single_buffer_tearing bufs bo r n).1.countP Event.is_draw = 0 ∧
      (run_single_buffer_tearing bufs bo r n).2 = true) := by
  have hlog : (run_single_buffer_tearing bufs bo 0 n).1 =
      Event.SetCrtc bo 0 :: (List.range n).map
        (fun k => Event.Draw bo (animate (int_of_u32 (bufs bo).width) k)) := by
    have := single_buffer_loop_eq bufs bo n 0
    simp only [animate, Nat.zero_add] at this
    simp [run_single_buffer_tearing, this]
  refine ⟨hlog, ?_, ?_, ?_, ?_, ?_, ?_⟩
  · rw [hlog]
    simp [List.countP_cons, List.countP_map, Event.is_setcrtc, Function.comp_def]
  · rw [hlog]
    simp [List.countP_cons, List.countP_map, Event.is_flip, Function.comp_def]
  · rw [hlog]
    intro e he
    simp only [List.mem_cons, List.mem_map] at he
    rcases he with he | ⟨k, -, he⟩ <;> subst he <;> rfl
  · rw [hlog]
    simp [List.countP_cons, List.countP_map, Event.is_draw, Function.comp_def]
  · rw [hlog]
    intro e he hd
    simp only [List.mem_cons, List.mem_map] at he
    rcases he with he | ⟨k, -, he⟩
    · subst he; simp [Event.is_draw] at hd
    · exact ⟨_, he.symm⟩
  · intro r hr
    simp [run_single_buffer_tearing, hr, Event.is_draw]

/-! ### main -/

theorem alloc_step_log (dev : drm_device) (conn : drm_connector) (st : alloc_state) (i : Nat)
    (h : ∀ e ∈ st.log, e.is_alloc = true) :
    ∀ e ∈ (alloc_step dev conn st i).log, e.is_alloc = true := by
  unfold alloc_step
  simp only
  split_ifs
  · exact h
  · intro e he
    simp only [List.mem_append, List.mem_singleton] at he
    rcases he with he | he
    · exact h e he
    · subst he; rfl
  · intro e he
    simp only [List.mem_append, List.mem_cons, List.mem_singleton] at he
    rcases he with he | he | he | he
    · exact h e he
    · subst he; rfl
    · subst he; rfl
    · simp at he

theorem alloc_loop_log (dev : drm_device) (conn : drm_connector) :
    ∀ e ∈ ((List.range MAX_BUFFERS).foldl (alloc_step dev conn)
      { bufs := bufs_zero, log := [], failed := false }).log, e.is_alloc = true := by
  have h2 : List.range MAX_BUFFERS = [0, 1] := by decide
  rw [h2]
  simp only [List.foldl_cons, List.foldl_nil]
  apply alloc_step_log
  apply alloc_step_log
  intro e he
  simp at he

theorem main_failure_log (argv1 : Option String) (dev : drm_device) (oracle : List Int)
    (iters : Nat) (st : Int) (h : (main argv1 dev oracle iters).2 = some st) (hst : st ≠ 0) :
    st = -1 ∧ ∀ e ∈ (main argv1 dev oracle iters).1, e.is_alloc = true := by
  unfold main at h ⊢
  split_ifs at h ⊢ with h1
  · simp at h ⊢; omega
  · split at h
    · simp at h ⊢; omega
    · split at h
      · simp at h ⊢; omega
      · simp only at h ⊢
        split_ifs at h ⊢ with h2 h3 h4
        · simp at h ⊢; omega
        · simp at h ⊢
          exact ⟨by omega, alloc_loop_log dev _⟩
        · simp at h; omega

theorem destroyed_append (l1 l2 : List Event) :
    destroyed (l1 ++ l2) = destroyed l1 ++ destroyed l2 := by
  induction l1 with
  | nil => rfl
  | cons e t ih => cases e <;> simp [destroyed, ih]

theorem created_append (l1 l2 : List Event) :
    created (l1 ++ l2) = created l1 ++ created l2 := by
  induction l1 with
  | nil => rfl
  | cons e t ih =>
    cases e with
    | CreateFb i r =>
      simp only [List.cons_append, created]
      split_ifs <;> simp [ih]
    | _ => simp [created, ih]

theorem destroyed_nil_of_alloc (l : List Event) (h : ∀ e ∈ l, e.is_alloc = true) :
    destroyed l = [] := by
  induction l with
  | nil => rfl
  | cons e t ih =>
    have he := h e (by simp)
    have ht := ih (fun x hx => h x (by simp [hx]))
    cases e <;> simp_all [destroyed, Event.is_alloc]

theorem destroyed_created_nil (l : List Event) (h : ∀ e ∈ l, e.is_main_call = false) :
    destroyed l = [] ∧ created l = [] := by
  induction l with
  | nil => exact ⟨rfl, rfl⟩
  | cons e t ih =>
    have he := h e (by simp)
    have ht := ih (fun x hx => h x (by simp [hx]))
    cases e <;> simp_all [destroyed, created, Event.is_main_call]

theorem tearing_loop_no_main_call (bufs : Int → buffer_object) (rets : List Int) :
    ∀ (anim : animation_state) (cur : Int),
      ∀ e ∈ (tearing_loop bufs anim cur rets).1, e.is_main_call = false := by
  induction rets with
  | nil =>
    intro anim cur e he
    simp [tearing_loop] at he
    subst he
    rfl
  | cons r rs ih =>
    intro anim cur e he
    simp only [tearing_loop] at he
    split_ifs at he
    · simp at he
      rcases he with he | he <;> subst he <;> rfl
    · simp only [List.mem_cons] at he
      rcases he with he | he | he | he
      · subst he; rfl
      · subst he; rfl
      · subst he; rfl
      · exact ih _ _ e he

theorem no_main_call_snoc (log : List Event) (e : Event)
    (h : ∀ x ∈ log, x.is_main_call = false) (he : e.is_main_call = false) :
    ∀ x ∈ log ++ [e], x.is_main_call = false := by
  intro x hx
  rcases List.mem_append.mp hx with hx | hx
  · exact h x hx
  · simp at hx; subst hx; exact he

theorem pf_step_no_main_call (bufs : Int → buffer_object) (s : pf_state) (r : Int)
    (h : ∀ e ∈ s.log, e.is_main_call = false) :
    ∀ e ∈ (pf_step bufs s r).log, e.is_main_call = false := by
  unfold pf_step
  cases hc : s.pc <;> simp only [pf_wait_head, pf_loop_head, page_flip_handler]
  · split_ifs
    · exact no_main_call_snoc _ _ h rfl
    · exact no_main_call_snoc _ _ (no_main_call_snoc _ _ h rfl) rfl
  · split_ifs
    · exact no_main_call_snoc _ _ h rfl
    · exact no_main_call_snoc _ _ h rfl
  · split_ifs
    · exact no_main_call_snoc _ _ h rfl
    · exact no_main_call_snoc _ _ h rfl
    · exact no_main_call_snoc _ _ h rfl
  · split_ifs
    · exact no_main_call_snoc _ _ (no_main_call_snoc _ _ h rfl) rfl
    · exact no_main_call_snoc _ _ (no_main_call_snoc _ _
        (no_main_call_snoc _ _ h rfl) rfl) rfl
    · exact no_main_call_snoc _ _ h rfl
    · exact no_main_call_snoc _ _ (no_main_call_snoc _ _ h rfl) rfl
  · exact h

theorem run_pageflip_no_main_call (bufs : Int → buffer_object) (oracle : List Int) :
    ∀ e ∈ (run_pageflip_demo bufs oracle).log, e.is_main_call = false := by
  have key : ∀ (rs : List Int) (s : pf_state), (∀ e ∈ s.log, e.is_main_call = false) →
      ∀ e ∈ (rs.foldl (pf_step bufs) s).log, e.is_main_call = false := by
    intro rs
    induction rs with
    | nil => intro s h; exact h
    | cons r rs ih => intro s h; exact ih _ (pf_step_no_main_call bufs s r h)
  exact key oracle pf_init (by simp [pf_init])

theorem single_buffer_loop_no_main_call (bufs : Int → buffer_object) (bo : Int) (n : Nat) :
    ∀ anim : animation_state,
      ∀ e ∈ single_buffer_loop bufs bo anim n, e.is_main_call = false := by
  induction n with
  | zero => intro anim e he; simp [single_buffer_loop] at he
  | succ m ih =>
    intro anim e he
    simp only [single_buffer_loop, List.mem_cons] at he
    rcases he with he | he
    · subst he; rfl
    · exact ih _ e he

theorem run_strategy_no_main_call (choice : Int) (bufs : Int → buffer_object)
    (oracle : List Int) (iters : Nat) :
    ∀ e ∈ (run_strategy choice bufs oracle iters).1, e.is_main_call = false := by
  unfold run_strategy
  split_ifs
  · exact tearing_loop_no_main_call bufs oracle anim_init 0
  · exact run_pageflip_no_main_call bufs oracle
  · cases oracle with
    | nil => intro e he; simp at he
    | cons r rs =>
      simp only [run_single_buffer_tearing]
      split_ifs
      · intro e he
        simp at he
        subst he
        rfl
      · intro e he
        simp only [List.mem_cons] at he
        rcases he with he | he
        · subst he; rfl
        · exact single_buffer_loop_no_main_call bufs 0 iters _ e he

theorem modeset_create_fb_ret (a : fb_answers) (bo : buffer_object) :
    (modeset_create_fb a bo).1 = 0 ∨ (modeset_create_fb a bo).1 = -1 := by
  unfold modeset_create_fb
  simp only
  split_ifs <;> simp

theorem alloc_step_created (dev : drm_device) (conn : drm_connector) (st : alloc_state)
    (i : Nat) (h : (alloc_step dev conn st i).failed = false) :
    st.failed = false ∧
    (alloc_step dev conn st i).log = st.log ++ [Event.CreateFb i 0, Event.Memset i] := by
  unfold alloc_step at h ⊢
  simp only at h ⊢
  by_cases h1 : st.failed = true
  · rw [if_pos h1] at h
    rw [h1] at h
    exact absurd h (by decide)
  · rw [if_neg h1] at h ⊢
    by_cases h2 : (modeset_create_fb (dev.create i)
        { st.bufs i with width := conn.hdisplay, height := conn.vdisplay }).1 < 0
    · rw [if_pos h2] at h
      simp at h
    · rw [if_neg h2]
      refine ⟨by simpa using h1, ?_⟩
      rcases modeset_create_fb_ret (dev.create i)
        { st.bufs i with width := conn.hdisplay, height := conn.vdisplay } with h3 | h3
      · rw [h3]
      · rw [h3] at h2
        exact absurd (by decide) h2

theorem alloc_loop_created (dev : drm_device) (conn : drm_connector)
    (h : ((List.range MAX_BUFFERS).foldl (alloc_step dev conn)
      { bufs := bufs_zero, log := [], failed := false }).failed = false) :
    ((List.range MAX_BUFFERS).foldl (alloc_step dev conn)
      { bufs := bufs_zero, log := [], failed := false }).log =
      [Event.CreateFb 0 0, Event.Memset 0, Event.CreateFb 1 0, Event.Memset 1] := by
  have h2 : List.range MAX_BUFFERS = [0, 1] := by decide
  rw [h2] at h ⊢
  simp only [List.foldl_cons, List.foldl_nil] at h ⊢
  obtain ⟨h3, h4⟩ := alloc_step_created dev conn _ 1 h
  obtain ⟨-, h5⟩ := alloc_step_created dev conn _ 0 h3
  rw [h4, h5]
  rfl

theorem teardown_eq : teardown =
    [Event.DestroyFb 0, Event.DestroyFb 1, Event.FreeConnector, Event.FreeResources,
      Event.Close] := by
  decide

theorem main_success_log (argv1 : Option String) (dev : drm_device) (oracle : List Int)
    (iters : Nat) (h : (main argv1 dev oracle iters).2 = some 0) :
    ∃ mid, (∀ e ∈ mid, e.is_main_call = false) ∧
      (main argv1 dev oracle iters).1 =
        [Event.CreateFb 0 0, Event.Memset 0, Event.CreateFb 1 0, Event.Memset 1] ++ mid ++
          teardown := by
  unfold main at h ⊢
  split_ifs at h ⊢ with h1
  · simp at h
  · split at h
    · simp at h
    · split at h
      · simp at h
      · simp only at h ⊢
        split_ifs at h ⊢ with h2 h3 h4
        · simp at h
        · simp at h
        · rw [alloc_loop_created dev _ (by simpa using h3)]
          exact ⟨_, run_strategy_no_main_call _ _ _ _, rfl⟩

/-- C8 (the code at the failing inputs). After every kind of unrecoverable error met
during a strategy loop, `main` returns exit status 0: a failed `drmModeSetCrtc` in the
unsynchronized strategy; in the synchronized strategy a failed initial `drmModeSetCrtc`, a
failed `drmModePageFlip`, a failed `select` and a `select` timeout; a failed bind in the
racing strategy.  A non-zero exit status is always -1 and is only returned before any
strategy call (the log then holds allocation calls only), as when `open` fails or the
second surface cannot be created. -/
theorem C8_exit_status_zero_after_loop_error :
    (main none dev_good [-1] 0).2 = some 0 ∧
    (main (some "--pageflip") dev_good [-1] 0).2 = some 0 ∧
    (main (some "--pageflip") dev_good [0, -1] 0).2 = some 0 ∧
    (main (some "--pageflip") dev_good [0, 0, -1] 0).2 = some 0 ∧
    (main (some "--pageflip") dev_good [0, 0, 0] 0).2 = some 0 ∧
    (main (some "--singlebuf") dev_good [-1] 0).2 = some 0 ∧
    (main none { dev_good with open_ret := -1 } [-1] 0).2 = some (-1) ∧
    (main none dev_second_fb_fails [-1] 0).2 = some (-1) ∧
    (∀ (argv1 : Option String) (dev : drm_device) (oracle : List Int) (iters : Nat)
      (st : Int), (main argv1 dev oracle iters).2 = some st → st ≠ 0 →
        st = -1 ∧ ∀ e ∈ (main argv1 dev oracle iters).1, e.is_alloc = true) := by
  refine ⟨by decide, by decide, by decide, by decide, by decide, by decide, by decide,
    by decide, ?_⟩
  intro argv1 dev oracle iters st h hst
  exact main_failure_log argv1 dev oracle iters st h hst

/-- C9 (the code at the failing inputs). Whenever `main` reaches its teardown (exit status
0), its log ends with `modeset_destroy_fb` on `bufs[0]`, then on `bufs[1]`, then
`drmModeFreeConnector`, `drmModeFreeResources` and `close`: the surfaces are destroyed in
the order of their creation (0, 1), which is not the reverse of it, and the device handle
is released after them. -/
theorem C9_teardown_in_creation_order (argv1 : Option String) (dev : drm_device)
    (oracle : List Int) (iters : Nat) (h : (main argv1 dev oracle iters).2 = some 0) :
    (∃ pre, (main argv1 dev oracle iters).1 =
        pre ++ [Event.DestroyFb 0, Event.DestroyFb 1, Event.FreeConnector,
          Event.FreeResources, Event.Close] ∧ destroyed pre = []) ∧
    created (main argv1 dev oracle iters).1 = [0, 1] ∧
    destroyed (main argv1 dev oracle iters).1 = [0, 1] ∧
    destroyed (main argv1 dev oracle iters).1 ≠
      (created (main argv1 dev oracle iters).1).reverse := by
  obtain ⟨mid, hmid, hlog⟩ := main_success_log argv1 dev oracle iters h
  obtain ⟨hd, hc⟩ := destroyed_created_nil mid hmid
  have hcr : created (main argv1 dev oracle iters).1 = [0, 1] := by
    rw [hlog, created_append, created_append, hc, teardown_eq]
    simp [created]
  have hde : destroyed (main argv1 dev oracle iters).1 = [0, 1] := by
    rw [hlog, destroyed_append, destroyed_append, hd, teardown_eq]
    simp [destroyed]
  refine ⟨⟨_, by rw [hlog, teardown_eq], ?_⟩, hcr, hde, ?_⟩
  · rw [destroyed_append, hd]
    simp [destroyed]
  · rw [hcr, hde]
    decide

theorem C9_teardown_in_creation_order_witness :
    (main none dev_good [-1] 0).2 = some 0 ∧
    destroyed (main none dev_good [-1] 0).1 = [0, 1] :=
  ⟨by decide, (C9_teardown_in_creation_order none dev_good [-1] 0 (by decide)).2.2.1⟩

/-- C10 (the code at the failing input). When `modeset_create_fb` fails for `bufs[1]`
after `bufs[0]` was created, `main` returns -1 at once, whatever the strategy selected: its
log is the two creation calls and the `memset` of `bufs[0]`, and holds no
`modeset_destroy_fb` call although surface 0 was created.  In general `main` never calls
`modeset_destroy_fb` when it returns a non-zero status. -/
theorem C10_no_teardown_on_allocation_failure :
    (∀ (argv1 : Option String) (oracle : List Int) (iters : Nat),
      main argv1 dev_second_fb_fails oracle iters =
        ([Event.CreateFb 0 0, Event.Memset 0, Event.CreateFb 1 (-1)], some (-1))) ∧
    created [Event.CreateFb 0 0, Event.Memset 0, Event.CreateFb 1 (-1)] = [0] ∧
    destroyed [Event.CreateFb 0 0, Event.Memset 0, Event.CreateFb 1 (-1)] = [] ∧
    (∀ (argv1 : Option String) (dev : drm_device) (oracle : List Int) (iters : Nat)
      (st : Int), (main argv1 dev oracle iters).2 = some st → st ≠ 0 →
        destroyed (main argv1 dev oracle iters).1 = []) := by
  refine ⟨?_, by decide, by decide, ?_⟩
  · intro argv1 oracle iters
    have h2 : List.range MAX_BUFFERS = [0, 1] := by decide
    simp [main, dev_second_fb_fails, dev_good, find_connector, conn_good, find_crtc,
      find_encoder, u32, h2, alloc_step, modeset_create_fb, fb_good]
  · intro argv1 dev oracle iters st h hst
    exact destroyed_nil_of_alloc _ (main_failure_log argv1 dev oracle iters st h hst).2

/-! ### update_animation: period, narrow displays -/

theorem half_period_ceil (W : Int) (hW : 80 ≤ W) :
    8 * ((half_period W : Nat) : Int) - 8 < W - 80 ∧
    W - 80 ≤ 8 * ((half_period W : Nat) : Int) := by
  unfold half_period
  omega

theorem update_animation_phase (a b : animation_state) (W : Int) (h : phase a = phase b) :
    phase (update_animation a W) = phase (update_animation b W) := by
  simp only [phase, Prod.mk.injEq] at h
  obtain ⟨h1, h2, h3⟩ := h
  simp only [update_animation, h1, h2, h3]
  split_ifs <;> simp [phase, h2, h3]

theorem animate_phase_shift (W : Int) (P : Nat) (h : phase (animate W P) = phase (animate W 0))
    (n : Nat) : phase (animate W (n + P)) = phase (animate W n) := by
  induction n with
  | zero => simpa using h
  | succ m ih =>
    have e : m + 1 + P = (m + P) + 1 := by omega
    rw [e]
    simp only [animate]
    exact update_animation_phase _ _ W ih

theorem update_animation_of_phase (a : animation_state) (W x d : Int)
    (h : phase a = (x, 80, d)) :
    phase (update_animation a W) =
      if x + d * 8 + 80 ≥ W then (W - 80, 80, -1)
      else if x + d * 8 ≤ 0 then (0, 80, 1) else (x + d * 8, 80, d) := by
  simp only [phase, Prod.mk.injEq] at h
  obtain ⟨h1, h2, h3⟩ := h
  simp only [update_animation, h1, h2, h3]
  split_ifs <;> simp [phase, h2, h3]

theorem animate_rightward (W : Int) (n : Nat) (h : n = 0 ∨ 8 * (n : Int) < W - 80) :
    phase (animate W n) = (8 * (n : Int), 80, 1) := by
  induction n with
  | zero => simp [animate, anim_init, phase]
  | succ m ih =>
    have hm := ih (by omega)
    have h8 : 8 * ((m : Int) + 1) < W - 80 := by omega
    show phase (update_animation (animate W m) W) = _
    rw [update_animation_of_phase _ W _ _ hm, if_neg (by omega), if_neg (by omega)]
    push_cast
    ring_nf

theorem animate_turn (W : Int) (hW : 80 < W) :
    phase (animate W (half_period W)) = (W - 80, 80, -1) := by
  obtain ⟨hc1, hc2⟩ := half_period_ceil W hW.le
  obtain ⟨k, hk⟩ : ∃ k, half_period W = k + 1 := ⟨half_period W - 1, by omega⟩
  rw [hk] at hc1 hc2 ⊢
  have hm := animate_rightward W k (by omega)
  push_cast at hc1 hc2
  show phase (update_animation (animate W k) W) = _
  rw [update_animation_of_phase _ W _ _ hm, if_pos (by omega)]

theorem animate_leftward (W : Int) (hW : 80 < W) (j : Nat) (h : 8 * (j : Int) < W - 80) :
    phase (animate W (half_period W + j)) = (W - 80 - 8 * (j : Int), 80, -1) := by
  induction j with
  | zero => simpa using animate_turn W hW
  | succ m ih =>
    have hm := ih (by omega)
    push_cast at h
    show phase (update_animation (animate W (half_period W + m)) W) = _
    rw [update_animation_of_phase _ W _ _ hm, if_neg (by omega), if_neg (by omega)]
    push_cast
    ring_nf

theorem animate_return (W : Int) (hW : 80 < W) :
    phase (animate W (2 * half_period W)) = (0, 80, 1) := by
  obtain ⟨hc1, hc2⟩ := half_period_ceil W hW.le
  obtain ⟨k, hk⟩ : ∃ k, half_period W = k + 1 := ⟨half_period W - 1, by omega⟩
  have hm := animate_leftward W hW k (by omega)
  have e : 2 * half_period W = (half_period W + k) + 1 := by omega
  rw [hk] at hc1 hc2
  push_cast at hc1 hc2
  rw [e]
  show phase (update_animation (animate W (half_period W + k)) W) = _
  rw [update_animation_of_phase _ W _ _ hm, if_neg (by omega), if_pos (by omega)]

theorem animate_not_home (W : Int) (hW : 80 < W) (n : Nat) (h0 : 0 < n)
    (h1 : n < 2 * half_period W) :
    ¬ ((animate W n).bar_x = 0 ∧ (animate W n).direction = 1) := by
  obtain ⟨hc1, hc2⟩ := half_period_ceil W hW.le
  by_cases hn : n < half_period W
  · have := animate_rightward W n (by omega)
    simp only [phase, Prod.mk.injEq] at this
    omega
  · obtain ⟨j, hj⟩ : ∃ j, n = half_period W + j := ⟨n - half_period W, by omega⟩
    have := animate_leftward W hW j (by omega)
    rw [← hj] at this
    simp only [phase, Prod.mk.injEq] at this
    omega

theorem animate_narrow (W : Int) (hW : W < 80) (n : Nat) :
    phase (animate W (2 * n)) = (0, 80, 1) ∧
    phase (animate W (2 * n + 1)) = (W - 80, 80, -1) := by
  have odd_of_even : ∀ m, phase (animate W m) = (0, 80, 1) →
      phase (animate W (m + 1)) = (W - 80, 80, -1) := by
    intro m hm
    show phase (update_animation (animate W m) W) = _
    rw [update_animation_of_phase _ W _ _ hm, if_pos (by omega)]
  induction n with
  | zero =>
    have h0 : phase (animate W 0) = (0, 80, 1) := by simp [animate, anim_init, phase]
    exact ⟨h0, odd_of_even 0 h0⟩
  | succ m ih =>
    have hev : phase (animate W (2 * (m + 1))) = (0, 80, 1) := by
      show phase (update_animation (animate W (2 * m + 1)) W) = _
      rw [update_animation_of_phase _ W _ _ ih.2, if_neg (by omega), if_pos (by omega)]
    exact ⟨hev, odd_of_even _ hev⟩

/-- C11. The bounce accumulates no drift: for every display width `W > 80`, with
`half_period W = ceil((W - 80) / 8)`, after exactly `2 * half_period W` calls of
`update_animation` from the initial state the pair `(bar_x, direction)` is again `(0, +1)`
(and at no earlier call after the start); position, width and direction after
`n + 2 * half_period W` calls are those after `n` calls, so the rendered positions are
periodic with that period, whether or not `W - 80` is a multiple of 8.  For `W = 80` the
pair is `(0, -1)` after one call and `(0, +1)` after two, and the period is 2. -/
theorem C11_bounce_period (W : Int) (hW : 80 < W) :
    (8 * ((half_period W : Nat) : Int) - 8 < W - 80 ∧
      W - 80 ≤ 8 * ((half_period W : Nat) : Int)) ∧
    ((animate W (2 * half_period W)).bar_x = 0 ∧
      (animate W (2 * half_period W)).direction = 1) ∧
    (∀ n : Nat,
      (animate W (n + 2 * half_period W)).bar_x = (animate W n).bar_x ∧
      (animate W (n + 2 * half_period W)).bar_width = (animate W n).bar_width ∧
      (animate W (n + 2 * half_period W)).direction = (animate W n).direction) ∧
    (∀ n : Nat, 0 < n → n < 2 * half_period W →
      ¬ ((animate W n).bar_x = 0 ∧ (animate W n).direction = 1)) ∧
    ((animate 80 1).bar_x = 0 ∧ (animate 80 1).direction = -1) ∧
    ((animate 80 2).bar_x = 0 ∧ (animate 80 2).direction = 1) ∧
    (∀ n : Nat,
      (animate 80 (n + 2)).bar_x = (animate 80 n).bar_x ∧
      (animate 80 (n + 2)).bar_width = (animate 80 n).bar_width ∧
      (animate 80 (n + 2)).direction = (animate 80 n).direction) := by
  have hret := animate_return W hW
  have h0 : phase (animate W 0) = (0, 80, 1) := by simp [animate, anim_init, phase]
  have h80 : phase (animate 80 2) = phase (animate 80 0) := by decide
  refine ⟨half_period_ceil W hW.le, ?_, ?_, animate_not_home W hW, by decide, by decide, ?_⟩
  · simp only [phase, Prod.mk.injEq] at hret
    exact ⟨hret.1, hret.2.2⟩
  · intro n
    have := animate_phase_shift W (2 * half_period W) (by rw [hret, h0]) n
    simpa only [phase, Prod.mk.injEq] using this
  · intro n
    have := animate_phase_shift 80 2 h80 n
    simpa only [phase, Prod.mk.injEq] using this

theorem C11_bounce_period_witness :
    (80 : Int) < 90 ∧
    ((animate 90 (2 * half_period 90)).bar_x = 0 ∧
      (animate 90 (2 * half_period 90)).direction = 1) :=
  ⟨by decide, (C11_bounce_period 90 (by decide)).2.1⟩

/-- C14. On a display narrower than the bar the clamp invariant is lost: for every width
`W < 80`, after an odd number of `update_animation` calls from the initial state
`bar_x = W - 80 < 0`, after an even number `bar_x = 0` with `bar_x + bar_width > W`; so no
state reached satisfies `0 ≤ bar_x` and `bar_x + bar_width ≤ W`. -/
theorem C14_narrow_display (W : Int) (hW : W < 80) (n : Nat) :
    (n % 2 = 1 → (animate W n).bar_x = W - 80 ∧ (animate W n).bar_x < 0) ∧
    (n % 2 = 0 →
      (animate W n).bar_x = 0 ∧ (animate W n).bar_x + (animate W n).bar_width > W) ∧
    ¬ (0 ≤ (animate W n).bar_x ∧ (animate W n).bar_x + (animate W n).bar_width ≤ W) := by
  obtain ⟨he, ho⟩ := animate_narrow W hW (n / 2)
  simp only [phase, Prod.mk.injEq] at he ho
  rcases Nat.mod_two_eq_zero_or_one n with h | h
  · have e : n = 2 * (n / 2) := by omega
    rw [← e] at he
    refine ⟨fun h1 => by omega, fun _ => ⟨he.1, by omega⟩, by omega⟩
  · have e : n = 2 * (n / 2) + 1 := by omega
    rw [← e] at ho
    refine ⟨fun _ => ⟨ho.1, by omega⟩, fun h0 => by omega, by omega⟩

theorem C14_narrow_display_witness :
    (64 : Int) < 80 ∧
    ¬ (0 ≤ (animate 64 3).bar_x ∧ (animate 64 3).bar_x + (animate 64 3).bar_width ≤ 64) :=
  ⟨by decide, (C14_narrow_display 64 (by decide) 3).2.2⟩

/-! ### draw_moving_bar: bounds of the writes -/

theorem draw_row_untouched (bo : buffer_object) (anim : animation_state) (y o : Nat)
    (pixel : Nat → Nat) (h : ∀ x, x < bo.width → pixel_offset bo y x ≠ o) :
    draw_row bo anim y pixel o = pixel o := by
  rw [draw_row_eq]
  apply foldl_write_miss (fun x => pixel_offset bo y x)
  intro x hx
  exact h x (List.mem_range.mp hx)

theorem draw_rows_untouched (bo : buffer_object) (anim : animation_state) (o : Nat)
    (n : Nat) (h : ∀ y x, y < n → x < bo.width → pixel_offset bo y x ≠ o)
    (pixel : Nat → Nat) :
    (List.range n).foldl (fun px y => draw_row bo anim y px) pixel o = pixel o := by
  induction n with
  | zero => rfl
  | succ k ih =>
    rw [List.range_succ, List.foldl_append]
    simp only [List.foldl_cons, List.foldl_nil]
    rw [draw_row_untouched bo anim k o _ (fun x hx => h k x (by omega) hx)]
    exact ih (fun y x hy hx => h y x (by omega) hx)

theorem pixel_offset_in_mapping (bo : buffer_object) (hs : bo.width ≤ bo.pitch / 4)
    (hsize : bo.pitch * bo.height ≤ bo.size) (hno : bo.height * (bo.pitch / 4) < 2 ^ 32)
    (y x : Nat) (hy : y < bo.height) (hx : x < bo.width) :
    pixel_offset bo y x = y * (bo.pitch / 4) + x ∧ pixel_offset bo y x < bo.size / 4 := by
  have he := pixel_offset_exact bo hs hno.le y x hy hx
  refine ⟨he, ?_⟩
  rw [he]
  have h1 : (y + 1) * (bo.pitch / 4) ≤ bo.height * (bo.pitch / 4) :=
    Nat.mul_le_mul_right _ hy
  have h2 : (y + 1) * (bo.pitch / 4) = y * (bo.pitch / 4) + bo.pitch / 4 := by ring
  have h3 : bo.height * (bo.pitch / 4) * 4 ≤ bo.pitch * bo.height := by
    have : bo.pitch / 4 * 4 ≤ bo.pitch := Nat.div_mul_le_self bo.pitch 4
    calc bo.height * (bo.pitch / 4) * 4 = bo.height * (bo.pitch / 4 * 4) := by ring
      _ ≤ bo.height * bo.pitch := Nat.mul_le_mul_left _ this
      _ = bo.pitch * bo.height := by ring
  have h4 : bo.height * (bo.pitch / 4) ≤ bo.size / 4 := by
    rw [Nat.le_div_iff_mul_le (by norm_num)]
    omega
  omega

/-- C13. All pixel writes of `draw_moving_bar` stay inside the mapping: for every buffer
with `pitch / 4 ≥ width`, `size ≥ pitch * height` and `height * (pitch / 4) < 2^32` (the
bounds `width ≥ 1` and `height ≥ 1` are not needed), the offset computed on line 71 for
each pixel `x < width`, `y < height` of the two loops is `y * (pitch / 4) + x` and is
strictly less than `size / 4`; and `draw_moving_bar` leaves every word at an offset
`≥ size / 4` as it was, whatever the memory held. -/
theorem C13_writes_in_bounds (bo : buffer_object) (anim : animation_state)
    (hs : bo.width ≤ bo.pitch / 4) (hsize : bo.pitch * bo.height ≤ bo.size)
    (hno : bo.height * (bo.pitch / 4) < 2 ^ 32) :
    (∀ y x, y < bo.height → x < bo.width →
      pixel_offset bo y x = y * (bo.pitch / 4) + x ∧ pixel_offset bo y x < bo.size / 4) ∧
    (∀ (pixel : Nat → Nat) (o : Nat), bo.size / 4 ≤ o →
      draw_moving_bar bo anim pixel o = pixel o) := by
  refine ⟨fun y x hy hx => pixel_offset_in_mapping bo hs hsize hno y x hy hx, ?_⟩
  intro pixel o ho
  unfold draw_moving_bar
  apply draw_rows_untouched
  intro y x hy hx e
  have := (pixel_offset_in_mapping bo hs hsize hno y x hy hx).2
  omega

theorem C13_writes_in_bounds_witness :
    pixel_offset small_bo 1 2 < small_bo.size / 4 :=
  ((C13_writes_in_bounds small_bo anim_init (by decide) (by decide) (by decide)).1
    1 2 (by decide) (by decide)).2

/-! ### run_pageflip_demo: writes and scanout are disjoint -/

theorem scanout_of_snoc (log : List Event) (e : Event) :
    scanout_of (log ++ [e]) = scanout_step (scanout_of log) e := by
  simp [scanout_of, List.foldl_append]

theorem draws_ok_snoc (log : List Event) (e : Event) (h : draws_ok log)
    (he : e.is_draw = false) : draws_ok (log ++ [e]) := by
  intro pre post fb a hdec
  rcases snoc_eq_append_cons _ _ _ _ _ hdec with ⟨-, -, h3⟩ | ⟨p1, -, h2⟩
  · subst h3; simp [Event.is_draw] at he
  · exact h pre p1 fb a h2

theorem draws_ok_snoc_draw (log : List Event) (fb : Int) (a : animation_state)
    (h : draws_ok log) (h1 : (scanout_of log).inflight = none)
    (h2 : (scanout_of log).claimed = some (1 - fb)) :
    draws_ok (log ++ [Event.Draw fb a]) := by
  intro pre post fb1 a1 hdec
  rcases snoc_eq_append_cons _ _ _ _ _ hdec with ⟨-, h3, h4⟩ | ⟨p1, -, h3⟩
  · injection h4 with h5 h6
    subst h3 h5
    exact ⟨h1, h2⟩
  · exact h pre p1 fb1 a1 h3

theorem pf_loop_head_scan_inv (bufs : Int → buffer_object) (s : pf_state)
    (hd : draws_ok s.log)
    (hsc : scanout_of s.log = { claimed := some s.cur, inflight := none })
    (hw : s.pending.waiting = false) : scan_inv (pf_loop_head bufs s) := by
  have h1 : draws_ok (s.log ++ [Event.Draw (1 - s.cur) s.anim]) := by
    apply draws_ok_snoc_draw _ _ _ hd
    · rw [hsc]
    · rw [hsc]; simp
  have h2 : scanout_of (s.log ++ [Event.Draw (1 - s.cur) s.anim]) =
      { claimed := some s.cur, inflight := none } := by
    rw [scanout_of_snoc, hsc]; rfl
  simp only [scan_inv, pf_loop_head]
  refine ⟨h1, ?_, h2, trivial, hw⟩
  intro c hc
  rw [h2] at hc
  simpa using hc

theorem pf_init_scan_inv : scan_inv pf_init := by
  refine ⟨?_, ?_, ?_⟩
  · intro pre post fb a h
    simp [pf_init] at h
  · intro c hc
    simp [pf_init, scanout_of] at hc
  · simp [pf_init]

theorem pf_step_scan_inv (bufs : Int → buffer_object) (s : pf_state) (r : Int)
    (h : scan_inv s) : scan_inv (pf_step bufs s r) := by
  obtain ⟨hd, hcl, hpc⟩ := h
  unfold pf_step
  cases hc : s.pc <;> rw [hc] at hpc <;> simp only at hpc ⊢
  · -- at_SetCrtc
    obtain ⟨hlog, hcur, hw⟩ := hpc
    have hd1 := draws_ok_snoc s.log (Event.SetCrtc s.cur r) hd rfl
    split_ifs with hr
    · refine ⟨hd1, ?_, trivial⟩
      intro c hcc
      simp only [scanout_of_snoc, scanout_step, if_neg hr] at hcc
      exact hcl c hcc
    · have hr0 : r = 0 := by simpa using hr
      apply pf_loop_head_scan_inv
      · exact hd1
      · simp only [scanout_of_snoc, scanout_step, hr0, if_true, hlog]
        rfl
      · exact hw
  · -- at_PageFlip
    obtain ⟨hsc, hb, hw⟩ := hpc
    have hd1 := draws_ok_snoc s.log (Event.PageFlip s.back r) hd rfl
    split_ifs with hr
    · refine ⟨hd1, ?_, trivial⟩
      intro c hcc
      simp only [scanout_of_snoc, scanout_step, if_neg hr] at hcc
      exact hcl c hcc
    · have hr0 : r = 0 := by simpa using hr
      have hsc1 : scanout_of (s.log ++ [Event.PageFlip s.back r]) =
          { claimed := some s.cur, inflight := some s.back } := by
        simp only [scanout_of_snoc, scanout_step, hr0, if_true, hsc]
      simp only [pf_wait_head, if_true]
      refine ⟨hd1, ?_, hsc1, hb, rfl⟩
      intro c hcc
      simp only at hcc
      rw [hsc1] at hcc
      simpa using hcc
  · -- at_select
    obtain ⟨hsc, hb, hw⟩ := hpc
    have hd1 := draws_ok_snoc s.log (Event.Select r) hd rfl
    have hsc1 : scanout_of (s.log ++ [Event.Select r]) = scanout_of s.log := by
      rw [scanout_of_snoc]; rfl
    have hcl1 : ∀ c, (scanout_of (s.log ++ [Event.Select r])).claimed = some c → s.cur = c := by
      intro c hcc; rw [hsc1] at hcc; exact hcl c hcc
    split_ifs
    · exact ⟨hd1, hcl1, trivial⟩
    · exact ⟨hd1, hcl1, trivial⟩
    · exact ⟨hd1, hcl1, by rw [hsc1]; exact hsc, hb, hw⟩
  · -- at_HandleEvent
    obtain ⟨hsc, hb, hw⟩ := hpc
    have hd1 := draws_ok_snoc s.log Event.HandleEvent hd rfl
    have hsc1 : scanout_of (s.log ++ [Event.HandleEvent]) = scanout_of s.log := by
      rw [scanout_of_snoc]; rfl
    split_ifs with hr
    · have hd2 := draws_ok_snoc _ Event.FlipHandler hd1 rfl
      have hsc2 : scanout_of (s.log ++ [Event.HandleEvent] ++ [Event.FlipHandler]) =
          { claimed := some s.back, inflight := none } := by
        rw [scanout_of_snoc, hsc1, hsc]; rfl
      simp only [pf_wait_head, page_flip_handler]
      apply pf_loop_head_scan_inv
      · exact hd2
      · exact hsc2
      · rfl
    · simp only [pf_wait_head, hw, if_true]
      refine ⟨hd1, ?_, by rw [hsc1]; exact hsc, hb, hw⟩
      intro c hcc
      simp only at hcc
      rw [hsc1] at hcc
      exact hcl c hcc
  · refine ⟨hd, hcl, ?_⟩
    rw [hc]
    trivial

theorem run_pageflip_scan_inv (bufs : Int → buffer_object) (oracle : List Int) :
    scan_inv (run_pageflip_demo bufs oracle) := by
  have key : ∀ (rs : List Int) (s : pf_state), scan_inv s →
      scan_inv (rs.foldl (pf_step bufs) s) := by
    intro rs
    induction rs with
    | nil => intro s h; exact h
    | cons r rs ih => intro s h; exact ih _ (pf_step_scan_inv bufs s r h)
  exact key oracle pf_init pf_init_scan_inv

theorem inflight_stays (mid : List Event) (h : ∀ e ∈ mid, e.is_handler = false) :
    ∀ st : scanout, st.inflight ≠ none → (mid.foldl scanout_step st).inflight ≠ none := by
  induction mid with
  | nil => intro st hst; exact hst
  | cons e t ih =>
    intro st hst
    rw [List.foldl_cons]
    apply ih (fun x hx => h x (by simp [hx]))
    have he := h e (by simp)
    cases e <;> simp only [scanout_step] <;> first | exact hst | skip
    · split_ifs <;> exact hst
    · split_ifs
      · simp
      · exact hst
    · simp [Event.is_handler] at he

theorem pf_step_cur (bufs : Int → buffer_object) (s : pf_state) (r : Int) (h : scan_inv s)
    (hne : (pf_step bufs s r).cur ≠ s.cur) :
    s.pc = pf_pc.at_HandleEvent ∧ r ≠ 0 ∧ (pf_step bufs s r).cur = s.back ∧
    (pf_step bufs s r).pending.waiting = false ∧
    (pf_step bufs s r).pc = pf_pc.at_PageFlip := by
  obtain ⟨-, -, hpc⟩ := h
  unfold pf_step at hne ⊢
  cases hc : s.pc <;> rw [hc] at hpc hne <;> simp only at hpc hne ⊢
  · exfalso
    apply hne
    split_ifs <;> simp [pf_loop_head]
  · exfalso
    apply hne
    split_ifs <;> simp [pf_wait_head]
  · exfalso
    apply hne
    split_ifs <;> rfl
  · obtain ⟨-, -, hw⟩ := hpc
    by_cases hr : r = 0
    · exfalso
      apply hne
      simp [hr, pf_wait_head, hw]
    · simp [hr, pf_wait_head, page_flip_handler, pf_loop_head]
  · exact absurd rfl hne

/-- C12. The synchronized strategy never writes the surface being scanned out.  Along the
log of `run_pageflip_demo`, for every oracle, let `claimed` be the surface bound by the
initial `drmModeSetCrtc` and thereafter the surface of the latest flip whose completion
callback has run, and `inflight` the surface of a flip requested with success whose
callback has not run yet.  Then (1) every `draw_moving_bar` call is made with no flip in
flight and targets the surface `1 - claimed`; (2) between a successful flip request and a
later `draw_moving_bar` call the completion callback has run; (3) `cur` is the claimed
surface; (4) a step changes `cur` only if it is a dispatch that ran `page_flip_handler`,
and then `cur` becomes the flipped surface `back`, which was in flight and is now claimed,
with `pending.waiting` cleared. -/
theorem C12_never_draws_scanout (bufs : Int → buffer_object) (oracle : List Int) :
    (∀ pre post fb a,
      (run_pageflip_demo bufs oracle).log = pre ++ Event.Draw fb a :: post →
        (scanout_of pre).inflight = none ∧
        ∃ c, (scanout_of pre).claimed = some c ∧ fb = 1 - c) ∧
    (∀ pre mid post f fb a,
      (run_pageflip_demo bufs oracle).log =
        pre ++ Event.PageFlip f 0 :: (mid ++ Event.Draw fb a :: post) →
        ∃ e ∈ mid, e.is_handler = true) ∧
    (∀ c, (scanout_of (run_pageflip_demo bufs oracle).log).claimed = some c →
      (run_pageflip_demo bufs oracle).cur = c) ∧
    (∀ r : Int,
      (pf_step bufs (run_pageflip_demo bufs oracle) r).cur ≠
        (run_pageflip_demo bufs oracle).cur →
      (run_pageflip_demo bufs oracle).pc = pf_pc.at_HandleEvent ∧ r ≠ 0 ∧
      (scanout_of (run_pageflip_demo bufs oracle).log).inflight =
        some (run_pageflip_demo bufs oracle).back ∧
      (pf_step bufs (run_pageflip_demo bufs oracle) r).cur =
        (run_pageflip_demo bufs oracle).back ∧
      (pf_step bufs (run_pageflip_demo bufs oracle) r).pending.waiting = false ∧
      (scanout_of (pf_step bufs (run_pageflip_demo bufs oracle) r).log).claimed =
        some (run_pageflip_demo bufs oracle).back) := by
  have hinv := run_pageflip_scan_inv bufs oracle
  generalize run_pageflip_demo bufs oracle = s at *
  have hd : draws_ok s.log := hinv.1
  refine ⟨?_, ?_, hinv.2.1, ?_⟩
  · intro pre post fb a hdec
    obtain ⟨h1, h2⟩ := hd pre post fb a hdec
    exact ⟨h1, 1 - fb, h2, by ring⟩
  · intro pre mid post f fb a hdec
    have hdec1 : s.log = (pre ++ Event.PageFlip f 0 :: mid) ++ Event.Draw fb a :: post := by
      simpa using hdec
    obtain ⟨h1, -⟩ := hd _ post fb a hdec1
    by_contra hcon
    push_neg at hcon
    have hmid : ∀ e ∈ mid, e.is_handler = false := by
      intro e he
      simpa using hcon e he
    have := inflight_stays mid hmid
      (scanout_step (scanout_of pre) (Event.PageFlip f 0)) (by simp [scanout_step])
    apply this
    rw [← h1]
    simp [scanout_of, List.foldl_append]
  · intro r hne
    obtain ⟨h1, h2, h3, h4, h5⟩ := pf_step_cur bufs s r hinv hne
    have hnext := pf_step_scan_inv bufs s r hinv
    obtain ⟨-, -, hpc2⟩ := hnext
    rw [h5] at hpc2
    simp only at hpc2
    obtain ⟨-, -, hpc1⟩ := hinv
    rw [h1] at hpc1
    simp only at hpc1
    refine ⟨h1, h2, by rw [hpc1.1], h3, h4, ?_⟩
    rw [hpc2.1, h3]

/-! ### run_pageflip_demo: the completion timeout -/

theorem ends_with_select_snoc (log : List Event) (e : Event) :
    ends_with_select (log ++ [e]) = e.is_select := by
  cases e <;> simp [ends_with_select, Event.is_select]

theorem sel_ok_snoc_plain (log : List Event) (e : Event) (h : sel_ok log)
    (hl : ends_with_select log = false) (h1 : e.is_select = false)
    (h2 : e.is_dispatch = false) :
    sel_ok (log ++ [e]) ∧ ends_with_select (log ++ [e]) = false := by
  unfold sel_ok at h ⊢
  rw [ends_with_select_snoc, h1]
  rw [hl] at h
  simp [List.countP_append, h1, h2] at h ⊢
  exact h

theorem sel_ok_snoc_select (log : List Event) (r : Int) (h : sel_ok log)
    (hl : ends_with_select log = false) :
    sel_ok (log ++ [Event.Select r]) ∧ ends_with_select (log ++ [Event.Select r]) = true := by
  unfold sel_ok at h ⊢
  rw [ends_with_select_snoc]
  rw [hl] at h
  simp [List.countP_append, Event.is_select, Event.is_dispatch] at h ⊢
  exact h

theorem sel_ok_snoc_dispatch (log : List Event) (h : sel_ok log)
    (hl : ends_with_select log = true) :
    sel_ok (log ++ [Event.HandleEvent]) ∧
    ends_with_select (log ++ [Event.HandleEvent]) = false := by
  unfold sel_ok at h ⊢
  rw [ends_with_select_snoc]
  rw [hl] at h
  simp [List.countP_append, Event.is_select, Event.is_dispatch] at h ⊢
  exact h

theorem pf_step_sel_inv (bufs : Int → buffer_object) (s : pf_state) (r : Int)
    (h : sel_inv s) : sel_inv (pf_step bufs s r) := by
  obtain ⟨hok, hpc⟩ := h
  unfold pf_step
  cases hc : s.pc <;> rw [hc] at hpc <;> simp only at hpc ⊢
  · obtain ⟨h1, h2⟩ := sel_ok_snoc_plain s.log (Event.SetCrtc s.cur r) hok hpc rfl rfl
    split_ifs
    · exact ⟨h1, trivial⟩
    · obtain ⟨h3, h4⟩ := sel_ok_snoc_plain _ (Event.Draw (1 - s.cur) s.anim) h1 h2 rfl rfl
      exact ⟨h3, h4⟩
  · obtain ⟨h1, h2⟩ := sel_ok_snoc_plain s.log (Event.PageFlip s.back r) hok hpc rfl rfl
    split_ifs
    · exact ⟨h1, trivial⟩
    · simp only [pf_wait_head, if_true]
      exact ⟨h1, h2⟩
  · obtain ⟨h1, h2⟩ := sel_ok_snoc_select s.log r hok hpc
    split_ifs
    · exact ⟨h1, trivial⟩
    · exact ⟨h1, trivial⟩
    · exact ⟨h1, h2⟩
  · obtain ⟨h1, h2⟩ := sel_ok_snoc_dispatch s.log hok hpc
    split_ifs with hr
    · obtain ⟨h3, h4⟩ := sel_ok_snoc_plain _ Event.FlipHandler h1 h2 rfl rfl
      simp only [pf_wait_head, page_flip_handler]
      obtain ⟨h5, h6⟩ := sel_ok_snoc_plain _ (Event.Draw (1 - s.back) s.anim) h3 h4 rfl rfl
      exact ⟨h5, h6⟩
    · simp only [pf_wait_head]
      split_ifs
      · exact ⟨h1, h2⟩
      · obtain ⟨h5, h6⟩ := sel_ok_snoc_plain _ (Event.Draw (1 - s.back) s.anim) h1 h2 rfl rfl
        exact ⟨h5, h6⟩
  · refine ⟨hok, ?_⟩
    rw [hc]
    trivial

theorem run_pageflip_sel_inv (bufs : Int → buffer_object) (oracle : List Int) :
    sel_inv (run_pageflip_demo bufs oracle) := by
  have key : ∀ (rs : List Int) (s : pf_state), sel_inv s →
      sel_inv (rs.foldl (pf_step bufs) s) := by
    intro rs
    induction rs with
    | nil => intro s h; exact h
    | cons r rs ih => intro s h; exact ih _ (pf_step_sel_inv bufs s r h)
  apply key oracle pf_init
  simp [sel_inv, sel_ok, pf_init, ends_with_select]

theorem countP_snoc (p : Event → Bool) (log : List Event) (e : Event) :
    (log ++ [e]).countP p = log.countP p + (if p e = true then 1 else 0) := by
  rw [List.countP_append, List.countP_cons, List.countP_nil, Nat.zero_add]

theorem pf_step_quiet_inv (bufs : Int → buffer_object) (s : pf_state) (r : Int)
    (h : quiet_inv s) : quiet_inv (pf_step bufs s r) := by
  unfold quiet_inv at h ⊢
  unfold pf_step
  cases hc : s.pc <;> rw [hc] at h <;> simp only at h ⊢
  · split_ifs <;> intro hq <;>
      simp only [pf_loop_head, countP_snoc, Event.is_handler, Event.is_flip, Event.is_draw,
        Bool.false_eq_true, if_false, if_true, Nat.add_zero] at hq ⊢ <;>
      have := h hq <;> omega
  · split_ifs <;> intro hq <;>
      simp only [pf_wait_head, countP_snoc, Event.is_handler, Event.is_flip, Event.is_draw,
        Bool.false_eq_true, if_false, if_true, Nat.add_zero] at hq ⊢ <;>
      have := h hq
    · omega
    · exact ⟨trivial, by omega, by omega⟩
  · split_ifs <;> intro hq <;>
      simp only [countP_snoc, Event.is_handler, Event.is_flip, Event.is_draw,
        Bool.false_eq_true, if_false, if_true, Nat.add_zero] at hq ⊢ <;>
      have := h hq
    · omega
    · omega
    · exact this
  · split_ifs with hr
    · intro hq
      simp only [pf_wait_head, pf_loop_head, page_flip_handler, countP_snoc,
        Event.is_handler, Bool.false_eq_true, if_false, if_true, Nat.add_zero] at hq
      omega
    · intro hq
      have hq0 : s.log.countP Event.is_handler = 0 := by
        by_cases hw : s.pending.waiting = true <;>
          simp only [pf_wait_head, pf_loop_head, hw, countP_snoc, Event.is_handler,
            Bool.false_eq_true, if_false, if_true, Nat.add_zero] at hq <;> exact hq
      obtain ⟨hw, h1, h2⟩ := h hq0
      simp only [pf_wait_head, hw, if_true, countP_snoc, Event.is_handler, Event.is_flip,
        Event.is_draw, Bool.false_eq_true, if_false, Nat.add_zero]
      exact ⟨trivial, h1, h2⟩
  · rw [hc]
    exact h

theorem run_pageflip_quiet_inv (bufs : Int → buffer_object) (oracle : List Int) :
    quiet_inv (run_pageflip_demo bufs oracle) := by
  have key : ∀ (rs : List Int) (s : pf_state), quiet_inv s →
      quiet_inv (rs.foldl (pf_step bufs) s) := by
    intro rs
    induction rs with
    | nil => intro s h; exact h
    | cons r rs ih => intro s h; exact ih _ (pf_step_quiet_inv bufs s r h)
  apply key oracle pf_init
  simp [quiet_inv, pf_init]

theorem pf_step_quiet_started (bufs : Int → buffer_object) (s : pf_state) (r : Int)
    (h : quiet_started s) : quiet_started (pf_step bufs s r) := by
  unfold quiet_started at h ⊢
  unfold pf_step
  cases hc : s.pc <;> rw [hc] at h <;> simp only at h ⊢
  · split_ifs <;> intro hq <;>
      simp only [pf_loop_head, countP_snoc, Event.is_handler, Bool.false_eq_true, if_false,
        Nat.add_zero] at hq <;>
      have := (h hq).2.1 <;> simp at this
  · split_ifs <;> intro hq <;>
      simp only [pf_wait_head, countP_snoc, Event.is_handler, Bool.false_eq_true, if_false,
        if_true, Nat.add_zero] at hq <;>
      have := (h hq).2.1 <;> simp at this
  · split_ifs <;> intro hq <;>
      simp only [countP_snoc, Event.is_handler, Event.is_flip, Event.is_draw,
        Bool.false_eq_true, if_false, if_true, Nat.add_zero] at hq ⊢ <;>
      obtain ⟨h1, -, h3⟩ := h hq
    · exact ⟨Or.inr trivial, Or.inr (Or.inr trivial), h3⟩
    · exact ⟨Or.inr trivial, Or.inr (Or.inr trivial), h3⟩
    · refine ⟨Or.inl ?_, Or.inr (Or.inl trivial), h3⟩
      rcases h1 with h1 | h1
      · exact h1
      · exact absurd h1 (by decide)
  · split_ifs with hr
    · intro hq
      simp only [pf_wait_head, pf_loop_head, page_flip_handler, countP_snoc,
        Event.is_handler, Bool.false_eq_true, if_false, if_true, Nat.add_zero] at hq
      omega
    · intro hq
      have hq0 : s.log.countP Event.is_handler = 0 := by
        by_cases hw : s.pending.waiting = true <;>
          simp only [pf_wait_head, pf_loop_head, hw, countP_snoc, Event.is_handler,
            Bool.false_eq_true, if_false, if_true, Nat.add_zero] at hq <;> exact hq
      obtain ⟨h1, -, h3⟩ := h hq0
      have hw : s.pending.waiting = true := by
        rcases h1 with h1 | h1
        · exact h1
        · exact absurd h1 (by decide)
      simp only [pf_wait_head, hw, if_true, countP_snoc, Event.is_handler, Event.is_flip,
        Event.is_draw, Bool.false_eq_true, if_false, Nat.add_zero]
      exact ⟨Or.inl trivial, Or.inl trivial, h3⟩
  · rw [hc]
    intro hq
    obtain ⟨-, -, h3⟩ := h hq
    exact ⟨Or.inr rfl, Or.inr (Or.inr rfl), h3⟩

theorem foldl_quiet_started (bufs : Int → buffer_object) (rs : List Int) :
    ∀ s : pf_state, quiet_started s → quiet_started (rs.foldl (pf_step bufs) s) := by
  induction rs with
  | nil => intro s h; exact h
  | cons r rs ih => intro s h; exact ih _ (pf_step_quiet_started bufs s r h)

theorem run_pageflip_quiet_started (bufs : Int → buffer_object) (rest : List Int) :
    quiet_started (run_pageflip_demo bufs (0 :: 0 :: rest)) := by
  unfold run_pageflip_demo
  simp only [List.foldl_cons]
  apply foldl_quiet_started
  simp [quiet_started, pf_step, pf_init, pf_loop_head, pf_wait_head, Event.is_flip,
    Event.is_draw]

/-- C3 (as stated, refuted): with the answers bind 0, flip request 0, `select` 1 (readable),
a dispatch that runs no callback, `select` 0 (timeout), no completion callback ever runs,
yet `run_pageflip_demo` makes two `select` calls and one dispatch before it returns. -/
theorem C3_counterexample :
    (run_pageflip_demo bufs_hd [0, 0, 1, 0, 0]).log =
      [Event.SetCrtc 0 0, Event.Draw 1 anim_init, Event.PageFlip 1 0, Event.Select 1,
        Event.HandleEvent, Event.Select 0] ∧
    (run_pageflip_demo bufs_hd [0, 0, 1, 0, 0]).pc = pf_pc.returned ∧
    (run_pageflip_demo bufs_hd [0, 0, 1, 0, 0]).log.countP Event.is_handler = 0 ∧
    (run_pageflip_demo bufs_hd [0, 0, 1, 0, 0]).log.countP Event.is_flip = 1 ∧
    (run_pageflip_demo bufs_hd [0, 0, 1, 0, 0]).log.countP Event.is_select = 2 ∧
    (run_pageflip_demo bufs_hd [0, 0, 1, 0, 0]).log.countP Event.is_dispatch = 1 := by
  decide

/-- C3 (amended). The completion timeout is fatal.  For every oracle: (1) a `select` that
returned 0 is the last event of the log and `run_pageflip_demo` has returned, so no
render, flip request, wait or dispatch follows it; (2) as long as no completion callback
has run, the run holds at most one `drmModePageFlip` and one render, and exactly one of
each once the initial bind and the flip request have succeeded; (3) every `select` call
but a last one is matched by a dispatch, and when the log ends with the `select` that
timed out the `select` calls are one more than the dispatches; (4) when the initial bind
and the flip request succeed and the first `select` times out, the run is exactly bind,
render, flip request, `select`, whatever the oracle holds further: one `drmModePageFlip`,
one `select`, no dispatch. -/
theorem C3_timeout_fatal (bufs : Int → buffer_object) (oracle rest : List Int) :
    (∀ pre post, (run_pageflip_demo bufs oracle).log = pre ++ Event.Select 0 :: post →
      post = [] ∧ (run_pageflip_demo bufs oracle).pc = pf_pc.returned) ∧
    ((run_pageflip_demo bufs oracle).log.countP Event.is_handler = 0 →
      (run_pageflip_demo bufs oracle).log.countP Event.is_flip ≤ 1 ∧
      (run_pageflip_demo bufs oracle).log.countP Event.is_draw ≤ 1) ∧
    ((run_pageflip_demo bufs (0 :: 0 :: rest)).log.countP Event.is_handler = 0 →
      (run_pageflip_demo bufs (0 :: 0 :: rest)).log.countP Event.is_flip = 1 ∧
      (run_pageflip_demo bufs (0 :: 0 :: rest)).log.countP Event.is_draw = 1) ∧
    ((run_pageflip_demo bufs oracle).log.countP Event.is_select ≤
      (run_pageflip_demo bufs oracle).log.countP Event.is_dispatch + 1) ∧
    (∀ pre, (run_pageflip_demo bufs oracle).log = pre ++ [Event.Select 0] →
      (run_pageflip_demo bufs oracle).log.countP Event.is_select =
        (run_pageflip_demo bufs oracle).log.countP Event.is_dispatch + 1) ∧
    (run_pageflip_demo bufs (0 :: 0 :: 0 :: rest)).log =
      [Event.SetCrtc 0 0, Event.Draw 1 anim_init, Event.PageFlip 1 0, Event.Select 0] ∧
    (run_pageflip_demo bufs (0 :: 0 :: 0 :: rest)).pc = pf_pc.returned ∧
    (run_pageflip_demo bufs (0 :: 0 :: 0 :: rest)).log.countP Event.is_flip = 1 ∧
    (run_pageflip_demo bufs (0 :: 0 :: 0 :: rest)).log.countP Event.is_select = 1 ∧
    (run_pageflip_demo bufs (0 :: 0 :: 0 :: rest)).log.countP Event.is_dispatch = 0 ∧
    (run_pageflip_demo bufs (0 :: 0 :: 0 :: rest)).log.countP Event.is_draw = 1 := by
  have hq := run_pageflip_quiet_inv bufs oracle
  have hs := (run_pageflip_sel_inv bufs oracle).1
  refine ⟨(run_pageflip_timeout_inv bufs oracle).2, ?_, ?_, ?_, ?_, ?_⟩
  · intro h0
    have := hq h0
    cases hc : (run_pageflip_demo bufs oracle).pc <;> rw [hc] at this <;>
      simp only at this <;> omega
  · intro h0
    exact (run_pageflip_quiet_started bufs rest h0).2.2
  · unfold sel_ok at hs
    rw [hs]
    split_ifs <;> omega
  · intro pre hpre
    unfold sel_ok at hs
    rw [hs, hpre, ends_with_select_snoc]
    rfl
  · have hrun : run_pageflip_demo bufs (0 :: 0 :: 0 :: rest) =
        pf_step bufs (pf_step bufs (pf_step bufs pf_init 0) 0) 0 := by
      unfold run_pageflip_demo
      simp only [List.foldl_cons]
      apply foldl_returned
      simp [pf_step, pf_init, pf_loop_head, pf_wait_head]
    rw [hrun]
    simp [pf_step, pf_init, pf_loop_head, pf_wait_head, Event.is_flip, Event.is_select,
      Event.is_dispatch, Event.is_draw]

end DrmDemo
